import Mathlib

/-!
# BFF-proxy: rule matching, forwarding and the buffered request log

A shallow embedding of `internal/proxy/proxy.go`, `internal/logger/logger.go` and the
types of `internal/config/config.go`.

Conventions of the embedding:

* a Go `string` / `[]byte` is a `Str`, the list of its characters;
* a Go `map[string]string` is the list of its entries; the order of the list is the order in
  which one `range` loop happens to visit them;
* calls into libraries (`encoding/json`, `fmt`, `net/http`, hertz) are either small
  definitions that follow the documented behaviour of the library, or fields of an explicit
  parameter record.
-/

namespace BFFProxy

/-- A Go string. -/
abbrev Str := List Char

/-! ## The `strings` package -/

/-- Go `strings.HasPrefix(s, p)`. -/
def HasPrefix (s p : Str) : Bool := p.isPrefixOf s

/-- Go `strings.ToUpper`: every character is mapped by `unicode.ToUpper`, the argument
`upper`. -/
def ToUpper (upper : Char → Char) (s : Str) : Str := s.map upper

/-- Go `strings.ToLower`: every character is mapped by `unicode.ToLower`, the argument
`lower`. -/
def ToLower (lower : Char → Char) (s : Str) : Str := s.map lower

/-- Go `strings.TrimSuffix(s, suf)`: `s` without the trailing `suf`, or `s` itself. -/
def TrimSuffix (s suf : Str) : Str :=
  if suf.isSuffixOf s then s.take (s.length - suf.length) else s

/-- Go `strings.Contains(s, sub)`: `sub` starts at some position of `s`. -/
def Contains : Str → Str → Bool
  | [], sub => sub.isPrefixOf []
  | c :: t, sub => sub.isPrefixOf (c :: t) || Contains t sub

/-- Go `strings.Replace(s, old, new, 1)`: the leftmost occurrence of `old` is cut out and
`new` put in its place; an empty `old` occurs at position 0; no occurrence leaves `s`. -/
def ReplaceFirst (s old new : Str) : Str :=
  if old.isPrefixOf s then new ++ s.drop old.length
  else
    match s with
    | [] => []
    | c :: t => c :: ReplaceFirst t old new

/-! ## `internal/config/config.go` -/

/-- The Go struct `config.MatchCondition`. -/
structure MatchCondition where
  Path : Str
  Method : Str
  Headers : List (Str × Str)
  Query : List (Str × Str)
  Body : List (Str × Str)
  deriving DecidableEq, Repr

/-- The Go struct `config.ProxyRule`; `Timeout` is a Go `int` number of seconds. -/
structure ProxyRule where
  Name : Str
  Match : MatchCondition
  Target : Str
  Timeout : Int
  Headers : List (Str × Str)
  RewritePath : Str
  deriving DecidableEq, Repr

/-! ## Header names -/

/-- The bytes `net/textproto` accepts in a header name (RFC 7230 token characters). -/
def validHeaderFieldByte (c : Char) : Bool :=
  c.isAlphanum || "!#$%&'*+-.^_`|~".toList.contains c

/-- The second loop of `canonicalMIMEHeaderKey`: upper case at the start and after each
dash, lower case elsewhere. -/
def canonLoop : Bool → Str → Str
  | _, [] => []
  | upper, c :: t =>
    let d := if upper then c.toUpper else c.toLower
    d :: canonLoop (d == '-') t

/-- Go `textproto.CanonicalMIMEHeaderKey`: a name holding a byte that is not a token
character is returned as it is, any other name is put in canonical case. -/
def CanonicalMIMEHeaderKey (s : Str) : Str :=
  if s.all validHeaderFieldByte then canonLoop true s else s

/-! ## The inbound request -/

/-- What the handler reads from hertz's `app.RequestContext`. -/
structure RequestContext where
  /-- The result of `c.Path()`. -/
  path : Str
  /-- The result of `c.Method()`. -/
  method : Str
  /-- The header lines in the order `c.Request.Header.VisitAll` visits them. -/
  headers : List (Str × Str)
  /-- What hertz finds for `c.GetHeader(key)`: the value it holds under the header name
  `key`, `none` when the request carries no such header. The lookup is hertz's own: it folds
  the case of the name and keeps some headers (`Host`, `Cookie`, `Content-Length`, ...) in
  fields of their own. -/
  headerValue : Str → Option Str
  /-- The query string of the request URI as the client sent it. -/
  rawQuery : Str
  /-- The parsed query arguments behind `c.QueryArgs()`. -/
  queryArgs : List (Str × Str)
  /-- The result of `c.QueryArgs().QueryString()`: the parsed arguments encoded again. -/
  queryString : Str
  /-- The result of `c.Request.BodyBytes()`. -/
  body : Str

/-- The first value stored under a header name in a list of `net/http` header lines, `""`
when there is none (`Header.Get`): names are compared in canonical form. -/
def firstValue (key : Str) : List (Str × Str) → Str
  | [] => []
  | (k, v) :: rest =>
    if CanonicalMIMEHeaderKey k = CanonicalMIMEHeaderKey key then v else firstValue key rest

/-- The conversion `string(c.GetHeader(key))`: the value hertz holds under the name, `""`
when it holds none. -/
def GetHeader (c : RequestContext) (key : Str) : Str :=
  match c.headerValue key with
  | some value => value
  | none => []

/-- The call `c.Query(key)`: the first query argument named `key`, `""` when there is none. -/
def Query (c : RequestContext) (key : Str) : Str :=
  match c.queryArgs.find? (fun kv => kv.1 == key) with
  | some kv => kv.2
  | none => []

/-! ## `encoding/json` and `fmt` as seen by `matchBody` -/

/-- The library calls of the rule matcher, over a type `V` of decoded JSON values. -/
structure Codec (V : Type) where
  /-- The case mapping `unicode.ToUpper` behind `strings.ToUpper`. -/
  toUpper : Char → Char
  /-- The call `json.Unmarshal(body, &bodyMap)` with `bodyMap : map[string]interface{}`:
  an error, or the decoded map; the JSON text `null` decodes without error and leaves the
  map nil (`none`). -/
  unmarshalMap : Str → Except Str (Option (List (Str × V)))
  /-- The call `fmt.Sprintf("%v", value)`. -/
  sprintV : V → Str

/-- Go `bodyMap[key]` with the comma-ok form. -/
def mapLookup {V : Type} (key : Str) : List (Str × V) → Option V
  | [] => none
  | (k, v) :: rest => if k = key then some v else mapLookup key rest

/-! ## `internal/proxy/proxy.go`: the rule matcher -/

/-- The function `matchHeaders`. -/
def matchHeaders (c : RequestContext) : List (Str × Str) → Bool
  | [] => true
  | (key, value) :: rest =>
    if GetHeader c key ≠ value then false else matchHeaders c rest

/-- The function `matchQuery`. -/
def matchQuery (c : RequestContext) : List (Str × Str) → Bool
  | [] => true
  | (key, value) :: rest =>
    if Query c key ≠ value then false else matchQuery c rest

/-- The loop of `matchBody` over the conditions, on the decoded map (`none` is the nil map,
in which no key is found). -/
def matchBodyLoop {V : Type} (lib : Codec V) (bodyMap : Option (List (Str × V))) :
    List (Str × Str) → Bool
  | [] => true
  | (key, value) :: rest =>
    match bodyMap.bind (mapLookup key) with
    | none => false
    | some bodyValue =>
      if lib.sprintV bodyValue ≠ value then false else matchBodyLoop lib bodyMap rest

/-- The function `matchBody`. -/
def matchBody {V : Type} (lib : Codec V) (c : RequestContext)
    (conditions : List (Str × Str)) : Bool :=
  if c.body.length = 0 then false
  else
    match lib.unmarshalMap c.body with
    | .error _ => false
    | .ok bodyMap => matchBodyLoop lib bodyMap conditions

/-- The function `findMatchingRule`: the loop over `cfg.Proxy.Rules`, each `continue` being
the recursive call on the remaining rules. -/
def findMatchingRule {V : Type} (lib : Codec V) (c : RequestContext) :
    List ProxyRule → Option ProxyRule
  | [] => none
  | rule :: rest =>
    if rule.Match.Path ≠ [] ∧ ¬ HasPrefix c.path rule.Match.Path = true then
      findMatchingRule lib c rest
    else if rule.Match.Method ≠ [] ∧
        ToUpper lib.toUpper rule.Match.Method ≠ ToUpper lib.toUpper c.method then
      findMatchingRule lib c rest
    else if rule.Match.Headers.length > 0 ∧ ¬ matchHeaders c rule.Match.Headers = true then
      findMatchingRule lib c rest
    else if rule.Match.Query.length > 0 ∧ ¬ matchQuery c rule.Match.Query = true then
      findMatchingRule lib c rest
    else if rule.Match.Body.length > 0 ∧ ¬ matchBody lib c rule.Match.Body = true then
      findMatchingRule lib c rest
    else some rule

/-- The five tests one turn of the loop of `findMatchingRule` makes, none of them sending
the loop on to the next rule. -/
def passesChecks {V : Type} (lib : Codec V) (c : RequestContext) (r : ProxyRule) : Prop :=
  (r.Match.Path = [] ∨ r.Match.Path <+: c.path) ∧
  (r.Match.Method = [] ∨ ToUpper lib.toUpper r.Match.Method = ToUpper lib.toUpper c.method) ∧
  (∀ kv ∈ r.Match.Headers, GetHeader c kv.1 = kv.2) ∧
  (∀ kv ∈ r.Match.Query, Query c kv.1 = kv.2) ∧
  (r.Match.Body = [] ∨ matchBody lib c r.Match.Body = true)

/-! ### The matcher as the specification words it -/

/-- The first value the request carries for a query parameter, `none` when the parameter is
absent. -/
def firstQuery (c : RequestContext) (key : Str) : Option Str :=
  (c.queryArgs.find? (fun kv => kv.1 == key)).map Prod.snd

/-- The path dimension: not configured, or a prefix of the raw request path. -/
def pathHolds (c : RequestContext) (m : MatchCondition) : Prop :=
  m.Path = [] ∨ m.Path <+: c.path

/-- The method dimension: not configured, or equal to the request method once both are put
in upper case. -/
def methodHolds (upper : Char → Char) (c : RequestContext) (m : MatchCondition) : Prop :=
  m.Method = [] ∨ m.Method.map upper = c.method.map upper

/-- The body dimension: not configured, or the body is a JSON object in which every
configured key exists at top level with a value whose string form is the configured one. -/
def bodyHolds {V : Type} (lib : Codec V) (c : RequestContext) (m : MatchCondition) : Prop :=
  m.Body = [] ∨
    ∃ obj, lib.unmarshalMap c.body = .ok (some obj) ∧
      ∀ kv ∈ m.Body, ∃ v, mapLookup kv.1 obj = some v ∧ lib.sprintV v = kv.2

/-- A rule's configured dimensions all hold for a request, as the specification words them:
for every configured header the request carries it and its first value is the configured
one (absence fails), and likewise for every configured query parameter. -/
def ruleMatches {V : Type} (lib : Codec V) (c : RequestContext) (r : ProxyRule) : Prop :=
  pathHolds c r.Match ∧ methodHolds lib.toUpper c r.Match ∧
  (∀ kv ∈ r.Match.Headers, c.headerValue kv.1 = some kv.2) ∧
  (∀ kv ∈ r.Match.Query, firstQuery c kv.1 = some kv.2) ∧
  bodyHolds lib c r.Match

/-- The dimensions with an absent header or query parameter read as the empty string: every
configured header value equals the first value of that header, `""` when the request does
not carry it, and likewise for every configured query parameter. -/
def ruleAccepts {V : Type} (lib : Codec V) (c : RequestContext) (r : ProxyRule) : Prop :=
  pathHolds c r.Match ∧ methodHolds lib.toUpper c r.Match ∧
  (∀ kv ∈ r.Match.Headers, (c.headerValue kv.1).getD [] = kv.2) ∧
  (∀ kv ∈ r.Match.Query, (firstQuery c kv.1).getD [] = kv.2) ∧
  bodyHolds lib c r.Match

/-- A rule that only tests the path prefix. -/
def pathRule (name path target : Str) : ProxyRule where
  Name := name
  Match := ⟨path, [], [], [], []⟩
  Target := target
  Timeout := 0
  Headers := []
  RewritePath := []

/-- Rule A of the precedence scenario: path `/x`. -/
def ruleA : ProxyRule := pathRule "A".toList "/x".toList "http://a".toList

/-- Rule B of the precedence scenario: the catch-all path `/`. -/
def ruleB : ProxyRule := pathRule "B".toList "/".toList "http://b".toList

/-- A `GET` request for `path` without headers, query or body. -/
def getRequest (path : Str) : RequestContext where
  path := path
  method := "GET".toList
  headers := []
  headerValue _ := none
  rawQuery := []
  queryArgs := []
  queryString := []
  body := []

instance passesChecksDecidable {V : Type} (lib : Codec V) (c : RequestContext)
    (r : ProxyRule) : Decidable (passesChecks lib c r) := by
  unfold passesChecks
  infer_instance

/-! ## `internal/proxy/proxy.go`: the target URL of `proxyRequest` -/

/-- The first statements of `proxyRequest`: the path is rewritten when `rule.RewritePath`
is set, the target loses one trailing slash, and the query string follows a `?` when
`c.QueryArgs().Len() > 0`. -/
def targetURL (c : RequestContext) (rule : ProxyRule) : Str :=
  let path :=
    if rule.RewritePath ≠ [] then ReplaceFirst c.path rule.Match.Path rule.RewritePath
    else c.path
  let url := TrimSuffix rule.Target "/".toList ++ path
  if c.queryArgs.length > 0 then url ++ "?".toList ++ c.queryString else url

/-! ### The target URL as the specification words it -/

/-- The position of the first occurrence of `old` in `s`: the least `i` at which `old` is a
prefix of what is left of `s`. -/
def firstOccurrence (s old : Str) : Option Nat :=
  (List.range (s.length + 1)).find? (fun i => old.isPrefixOf (s.drop i))

/-- The effective path: the inbound path with the first occurrence of `rule.Match.Path`
replaced by `rule.RewritePath` when the latter is not empty, the inbound path otherwise. -/
def effectivePath (c : RequestContext) (rule : ProxyRule) : Str :=
  if rule.RewritePath = [] then c.path
  else
    match firstOccurrence c.path rule.Match.Path with
    | none => c.path
    | some i => c.path.take i ++ rule.RewritePath ++ c.path.drop (i + rule.Match.Path.length)

/-- The rule of the rewrite scenario: `/api` on `http://backend:9000`, rewritten to `/v2`. -/
def apiRule : ProxyRule where
  Name := "api".toList
  Match := ⟨"/api".toList, [], [], [], []⟩
  Target := "http://backend:9000".toList
  Timeout := 0
  Headers := []
  RewritePath := "/v2".toList

/-- The inbound request `GET /api/users?id=5`. -/
def apiRequest : RequestContext where
  path := "/api/users".toList
  method := "GET".toList
  headers := []
  headerValue _ := none
  rawQuery := "id=5".toList
  queryArgs := [("id".toList, "5".toList)]
  queryString := "id=5".toList
  body := []

/-! ## `net/http`: the header map of the outbound request -/

/-- Go `http.Header`, a `map[string][]string`: the values stored under each canonical
name, `[]` for a name that is not in the map. -/
abbrev Header := Str → List Str

/-- The header of a fresh `http.NewRequestWithContext` request. -/
def emptyHeader : Header := fun _ => []

/-- Go `Header.Add(key, value)`: appends to the values stored under the canonical name. -/
def headerAdd (h : Header) (key value : Str) : Header :=
  Function.update h (CanonicalMIMEHeaderKey key) (h (CanonicalMIMEHeaderKey key) ++ [value])

/-- Go `Header.Set(key, value)`: the canonical name now stores the single `value`. -/
def headerSet (h : Header) (key value : Str) : Header :=
  Function.update h (CanonicalMIMEHeaderKey key) [value]

/-- Go `Header.Get(key)`: the first value stored under the canonical name, `""` if none. -/
def headerGet (h : Header) (key : Str) : Str :=
  (h (CanonicalMIMEHeaderKey key)).headD []

/-- The `VisitAll` loop of `proxyRequest`: every inbound header line is added. -/
def copyHeaders (inbound : List (Str × Str)) (h : Header) : Header :=
  inbound.foldl (fun acc kv => headerAdd acc kv.1 kv.2) h

/-- The `range rule.Headers` loop of `proxyRequest`: every entry is set, in the order in
which the loop visits the map. -/
def overlayHeaders (extra : List (Str × Str)) (h : Header) : Header :=
  extra.foldl (fun acc kv => headerSet acc kv.1 kv.2) h

/-- The header of the outbound request of `proxyRequest`, from the inbound header lines
and the entries of `rule.Headers` in visiting order. -/
def outboundHeaders (inbound extra : List (Str × Str)) : Header :=
  overlayHeaders extra (copyHeaders inbound emptyHeader)

/-- No two entries of a Go map share a key. -/
def distinctKeys (m : List (Str × Str)) : Prop := (m.map Prod.fst).Nodup

/-- No two entries of the map share a canonical header name. -/
def distinctHeaderNames (m : List (Str × Str)) : Prop :=
  (m.map (fun kv => CanonicalMIMEHeaderKey kv.1)).Nodup

instance distinctKeysDecidable (m : List (Str × Str)) : Decidable (distinctKeys m) := by
  unfold distinctKeys
  infer_instance

instance distinctHeaderNamesDecidable (m : List (Str × Str)) :
    Decidable (distinctHeaderNames m) := by
  unfold distinctHeaderNames
  infer_instance

/-- A `rule.Headers` map with the two keys `x-foo` and `X-Foo`. -/
def clashingHeaders : List (Str × Str) :=
  [("x-foo".toList, "a".toList), ("X-Foo".toList, "b".toList)]

/-! ## `internal/proxy/proxy.go`: the timeout of `proxyRequest` -/

/-- A Go `int64` (and `int` on a 64-bit platform) keeps the low 64 bits of a result, read
in two's complement. -/
def wrapInt64 (x : Int) : Int := (x + 2 ^ 63) % 2 ^ 64 - 2 ^ 63

/-- Go `time.Second`, a `time.Duration` in nanoseconds. -/
def Second : Int := 1000000000

/-- A value a Go `int` can hold. -/
def isInt64 (x : Int) : Prop := -(2 ^ 63) ≤ x ∧ x < 2 ^ 63

/-- The timeout of `proxyRequest`, in nanoseconds:
`timeout := time.Duration(rule.Timeout) * time.Second`, replaced by `30 * time.Second`
when it is `0`. -/
def effectiveTimeout (rule : ProxyRule) : Int :=
  let timeout := wrapInt64 (rule.Timeout * Second)
  if timeout = 0 then 30 * Second else timeout

/-- Rule A with a configured timeout of `t` seconds. -/
def timeoutRule (t : Int) : ProxyRule := { ruleA with Timeout := t }

/-! ## `internal/logger/logger.go` -/

/-- The Go struct `logger.RequestLog`; times and the duration are in nanoseconds. -/
structure RequestLog where
  StartTime : Int
  EndTime : Int
  Duration : Int
  Method : Str
  Path : Str
  Query : Str
  Headers : List (Str × Str)
  Body : Str
  StatusCode : Int
  ResponseBody : Str
  Target : Str
  RuleName : Str
  Error : Str
  deriving DecidableEq, Repr

/-- The library calls of the logger. -/
structure LogCodec where
  /-- The call `json.Marshal(log)`: an error or the JSON text of the record. -/
  marshal : RequestLog → Except Str Str
  /-- The call `json.Unmarshal([]byte(line), &log)`: an error or the decoded record. -/
  unmarshal : Str → Except Str RequestLog
  /-- The line `logrus.Errorf` formats for an error text; `logrus` writes into the same
  file (`logrus.SetOutput(logFile)`). -/
  errorf : Str → Str

/-- The open `*os.File` behind `logFile`: the bytes of the file, and whether a write to
the handle succeeds (it does not once the handle is closed, or when the device refuses). -/
structure LogFile where
  content : Str
  writable : Bool
  deriving DecidableEq, Repr

/-- The package variables `logFile` (`none` is the nil pointer) and `logBuffer`. -/
structure Logger where
  logFile : Option LogFile
  logBuffer : List RequestLog
  deriving DecidableEq, Repr

/-- The package variable `bufferSize`. -/
def bufferSize : Nat := 100

/-- The call `logFile.WriteString(s)`; a failed write leaves the file as it is. -/
def WriteString (f : LogFile) (s : Str) : LogFile :=
  if f.writable then { f with content := f.content ++ s } else f

/-- The loop of `flushLogsLocked` over the buffer: a record that does not serialise is
reported and skipped, any other is written as one line. -/
def flushLoop (lib : LogCodec) (f : LogFile) : List RequestLog → LogFile
  | [] => f
  | log :: rest =>
    match lib.marshal log with
    | .error e => flushLoop lib (WriteString f (lib.errorf e)) rest
    | .ok logJSON => flushLoop lib (WriteString f (logJSON ++ "\n".toList)) rest

/-- The function `flushLogsLocked`: nothing happens on a nil `logFile`; otherwise the
buffer is written out and truncated to length 0. -/
def flushLogsLocked (lib : LogCodec) (s : Logger) : Logger :=
  match s.logFile with
  | none => s
  | some f => { logFile := some (flushLoop lib f s.logBuffer), logBuffer := [] }

/-- The function `LogRequest`. -/
def LogRequest (lib : LogCodec) (s : Logger) (log : RequestLog) : Logger :=
  let s1 : Logger := { s with logBuffer := s.logBuffer ++ [log] }
  if s1.logBuffer.length ≥ bufferSize then flushLogsLocked lib s1 else s1

/-- One tick of the `flushLogs` goroutine. -/
def flushTick (lib : LogCodec) (s : Logger) : Logger :=
  if s.logBuffer.length > 0 then flushLogsLocked lib s else s

/-- The function `Close`; the closed handle stays in `logFile` and takes no more writes. -/
def Close (lib : LogCodec) (s : Logger) : Logger :=
  let s1 := if s.logBuffer.length > 0 then flushLogsLocked lib s else s
  match s1.logFile with
  | none => s1
  | some f => { s1 with logFile := some { f with writable := false } }

/-- A sequence of `LogRequest` calls. -/
def logAll (lib : LogCodec) (s : Logger) (logs : List RequestLog) : Logger :=
  logs.foldl (LogRequest lib) s

/-- What one flush appends to a writable file for a list of records. -/
def flushText (lib : LogCodec) (logs : List RequestLog) : Str :=
  logs.flatMap fun log =>
    match lib.marshal log with
    | .error e => lib.errorf e
    | .ok logJSON => logJSON ++ "\n".toList

/-- One JSON line per record, in order: the text the specification expects in the file. -/
def jsonLines (lib : LogCodec) (logs : List RequestLog) : Str :=
  logs.flatMap fun log =>
    match lib.marshal log with
    | .error _ => []
    | .ok logJSON => logJSON ++ "\n".toList

/-- A record that only carries a path. -/
def pathLog (path : Str) : RequestLog where
  StartTime := 0
  EndTime := 0
  Duration := 0
  Method := "GET".toList
  Path := path
  Query := []
  Headers := []
  Body := []
  StatusCode := 200
  ResponseBody := []
  Target := []
  RuleName := []
  Error := []

/-- The path between the two quotes of the line `"path":"..."`, if the line has that
shape. -/
def pathOfLine (line : Str) : Option Str :=
  if "\"path\":\"".toList.isPrefixOf line ∧ "\"".toList.isSuffixOf (line.drop 8) then
    some ((line.drop 8).take (line.length - 9))
  else none

/-- A stand-in for `encoding/json` on records that only carry a path: a record is written
as `"path":"..."` and a line of that shape is read back. -/
def pathCodec : LogCodec where
  marshal log := .ok ("\"path\":\"".toList ++ log.Path ++ "\"".toList)
  unmarshal line :=
    match pathOfLine line with
    | some p => .ok (pathLog p)
    | none => .error "invalid character".toList
  errorf e := e ++ "\n".toList

/-! ## `internal/logger/logger.go`: `GetLogs` -/

/-- The constant `maxReadSize` of `GetLogs`: 1 MiB. -/
def maxReadSize : Nat := 1024 * 1024

/-- What `GetLogs` reads of the file: all of it, or its last `maxReadSize` bytes. -/
def readWindow (content : Str) : Str :=
  if content.length > maxReadSize then content.drop (content.length - maxReadSize)
  else content

/-- Go `unicode.IsSpace`. -/
def isSpace (c : Char) : Bool :=
  "\t\n\x0b\x0c\r \u0085\u00a0\u1680\u2028\u2029\u202f\u205f\u3000".toList.contains c ||
    (0x2000 ≤ c.toNat && c.toNat ≤ 0x200a)

/-- Go `strings.TrimSpace`. -/
def TrimSpace (s : Str) : Str :=
  ((s.dropWhile isSpace).reverse.dropWhile isSpace).reverse

/-- Go `strings.Split(s, "\n")`: the pieces between the line feeds, one more than there
are line feeds. -/
def SplitLines : Str → List Str
  | [] => [[]]
  | c :: t =>
    if c = Char.ofNat 10 then [] :: SplitLines t
    else
      match SplitLines t with
      | [] => [[c]]
      | l :: ls => (c :: l) :: ls

/-- The loop of `GetLogs`, `for i := len(lines) - 1; i >= 0 && count < limit; i--`, over
the lines from the last to the first. -/
def tailLoop (lib : LogCodec) (limit : Int) :
    List Str → Int → List RequestLog → List RequestLog
  | [], _, logs => logs
  | raw :: rest, count, logs =>
    if count < limit then
      let line := TrimSpace raw
      if line = [] then tailLoop lib limit rest count logs
      else
        match lib.unmarshal line with
        | .error _ => tailLoop lib limit rest count logs
        | .ok log => tailLoop lib limit rest (count + 1) (logs ++ [log])
    else logs

/-- The function `GetLogs`. `cfgLoaded` tells whether `config.GetConfig()` is non-nil, and
`file` is what `os.Open`, `Stat` and `Read` give for `cfg.Log.File` once the buffer is
flushed: the error `GetLogs` returns for the call that failed, or the bytes of the file. -/
def GetLogs (lib : LogCodec) (cfgLoaded : Bool) (file : Except Str Str) (s : Logger)
    (limit : Int) : Logger × Except Str (List RequestLog) :=
  if cfgLoaded = false then (s, .error "配置未加载".toList)
  else
    let s1 := flushTick lib s
    match file with
    | .error e => (s1, .error e)
    | .ok content =>
      (s1, .ok (tailLoop lib limit (SplitLines (readWindow content)).reverse 0 []))

/-- The record a line of the read window stands for: none for a blank line and for a line
that does not parse. -/
def parseLine (lib : LogCodec) (raw : Str) : Option RequestLog :=
  if TrimSpace raw = [] then none
  else
    match lib.unmarshal (TrimSpace raw) with
    | .error _ => none
    | .ok log => some log

/-- The records of the read window, most recent first. -/
def recentRecords (lib : LogCodec) (content : Str) : List RequestLog :=
  (SplitLines (readWindow content)).reverse.filterMap (parseLine lib)

/-- A log file with two records, a blank line and a line that is not a record. -/
def sampleLogFile : Str :=
  "\"path\":\"/a\"\n\n  \"path\":\"/b\"  \nnot json\n".toList

/-! ## A JSON decoder for `Codec` -/

/-- A decoded JSON value, as `encoding/json` stores it in an `interface{}`; a number keeps
its lexeme (the `float64` it becomes is formatted by a parameter of `sprintValue`), and the
members of an object are kept sorted by key, one per key. -/
inductive JsonValue where
  | null
  | bool (b : Bool)
  | number (lexeme : Str)
  | string (s : Str)
  | array (items : List JsonValue)
  | object (members : List (Str × JsonValue))

/-- The white space of JSON. -/
def isJsonSpace (c : Char) : Bool := " \t\r\n".toList.contains c
/-- The input without its leading white space. -/
def skipSpace (s : Str) : Str := s.dropWhile isJsonSpace
/-- The double quote. -/
def quote : Char := Char.ofNat 34
/-- The backslash. -/
def backslash : Char := Char.ofNat 92

/-- The value of a hexadecimal digit. -/
def hexVal (c : Char) : Option Nat :=
  if c.isDigit then some (c.toNat - 48)
  else if 97 ≤ c.toNat ∧ c.toNat ≤ 102 then some (c.toNat - 87)
  else if 65 ≤ c.toNat ∧ c.toNat ≤ 70 then some (c.toNat - 55)
  else none

/-- The four hexadecimal digits of a `u` escape. -/
def parseHex4 : Str → Option (Nat × Str)
  | a :: b :: c :: d :: rest =>
    match hexVal a, hexVal b, hexVal c, hexVal d with
    | some x, some y, some z, some w => some (((x * 16 + y) * 16 + z) * 16 + w, rest)
    | _, _, _, _ => none
  | _ => none

/-- The character a one-letter escape stands for. -/
def simpleEscape (e : Char) : Option Char :=
  if e = quote then some quote
  else if e = backslash then some backslash
  else if e = '/' then some '/'
  else if e = 'b' then some (Char.ofNat 8)
  else if e = 'f' then some (Char.ofNat 12)
  else if e = 'n' then some (Char.ofNat 10)
  else if e = 'r' then some (Char.ofNat 13)
  else if e = 't' then some (Char.ofNat 9)
  else none

/-- The rest of a JSON string after its opening quote: the decoded text and what follows
the closing quote. The first argument bounds the number of steps. -/
def parseString : Nat → Str → Option (Str × Str)
  | 0, _ => none
  | _ + 1, [] => none
  | fuel + 1, c :: rest =>
    if c = quote then some ([], rest)
    else if c.toNat < 32 then none
    else if c = backslash then
      match rest with
      | [] => none
      | e :: rest2 =>
        if e = 'u' then
          match parseHex4 rest2 with
          | none => none
          | some (cu, rest3) =>
            (parseString fuel rest3).map fun r => (Char.ofNat cu :: r.1, r.2)
        else
          match simpleEscape e with
          | none => none
          | some x => (parseString fuel rest2).map fun r => (x :: r.1, r.2)
    else (parseString fuel rest).map fun r => (c :: r.1, r.2)

/-- The leading decimal digits and what follows them. -/
def takeDigits (s : Str) : Str × Str := (s.takeWhile Char.isDigit, s.dropWhile Char.isDigit)

/-- A JSON number: its lexeme and what follows it. -/
def parseNumber (s : Str) : Option (Str × Str) :=
  let (sign, s1) := match s with
    | c :: r => if c = '-' then (['-'], r) else ([], s)
    | [] => ([], s)
  let (int, s2) := takeDigits s1
  if int = [] ∨ (int.length > 1 ∧ int.head? = some '0') then none
  else
    let fracPart : Option (Str × Str) := match s2 with
      | c :: r =>
        if c = '.' then
          let (fr, r2) := takeDigits r
          if fr = [] then none else some ('.' :: fr, r2)
        else some ([], s2)
      | [] => some ([], s2)
    match fracPart with
    | none => none
    | some (frac, s3) =>
      let expPart : Option (Str × Str) := match s3 with
        | c :: r =>
          if c = 'e' ∨ c = 'E' then
            let (sg, r1) := match r with
              | d :: r0 => if d = '+' ∨ d = '-' then ([d], r0) else ([], r)
              | [] => ([], r)
            let (ex, r2) := takeDigits r1
            if ex = [] then none else some (c :: sg ++ ex, r2)
          else some ([], s3)
        | [] => some ([], s3)
      match expPart with
      | none => none
      | some (ex, s4) => some (sign ++ int ++ frac ++ ex, s4)

/-- Go `m[key] = v` on a map kept as a list sorted by key: a later member replaces an
earlier one with the same key. -/
def insertMember (key : Str) (v : JsonValue) :
    List (Str × JsonValue) → List (Str × JsonValue)
  | [] => [(key, v)]
  | (k, w) :: rest =>
    if key = k then (key, v) :: rest
    else if key < k then (key, v) :: (k, w) :: rest
    else (k, w) :: insertMember key v rest

mutual
/-- A JSON value at the head of the input, and what follows it. The first argument bounds
the nesting and the number of members. -/
def parseValue : Nat → Str → Option (JsonValue × Str)
  | 0, _ => none
  | _ + 1, [] => none
  | fuel + 1, c :: rest =>
    if c = quote then (parseString (rest.length + 1) rest).map fun r => (.string r.1, r.2)
    else if c = '{' then
      match skipSpace rest with
      | [] => none
      | d :: rest2 =>
        if d = '}' then some (.object [], rest2) else parseMembers fuel (d :: rest2) []
    else if c = '[' then
      match skipSpace rest with
      | [] => none
      | d :: rest2 =>
        if d = ']' then some (.array [], rest2) else parseItems fuel (d :: rest2) []
    else if "true".toList.isPrefixOf (c :: rest) then some (.bool true, rest.drop 3)
    else if "false".toList.isPrefixOf (c :: rest) then some (.bool false, rest.drop 4)
    else if "null".toList.isPrefixOf (c :: rest) then some (.null, rest.drop 3)
    else (parseNumber (c :: rest)).map fun r => (.number r.1, r.2)
/-- The members of an object from its first key on, up to the closing brace. -/
def parseMembers : Nat → Str → List (Str × JsonValue) → Option (JsonValue × Str)
  | 0, _, _ => none
  | _ + 1, [], _ => none
  | fuel + 1, c :: rest, acc =>
    if c = quote then
      match parseString (rest.length + 1) rest with
      | none => none
      | some (key, r1) =>
        match skipSpace r1 with
        | [] => none
        | colon :: r2 =>
          if colon = ':' then
            match parseValue fuel (skipSpace r2) with
            | none => none
            | some (v, r3) =>
              match skipSpace r3 with
              | [] => none
              | e :: r4 =>
                if e = ',' then parseMembers fuel (skipSpace r4) (insertMember key v acc)
                else if e = '}' then some (.object (insertMember key v acc), r4)
                else none
          else none
    else none
/-- The items of an array from its first item on, up to the closing bracket. -/
def parseItems : Nat → Str → List JsonValue → Option (JsonValue × Str)
  | 0, _, _ => none
  | fuel + 1, s, acc =>
    match parseValue fuel s with
    | none => none
    | some (v, r3) =>
      match skipSpace r3 with
      | [] => none
      | e :: r4 =>
        if e = ',' then parseItems fuel (skipSpace r4) (acc ++ [v])
        else if e = ']' then some (.array (acc ++ [v]), r4)
        else none
end

/-- A whole JSON text: one value between optional white space. -/
def parseJSON (s : Str) : Option JsonValue :=
  match parseValue (s.length + 1) (skipSpace s) with
  | none => none
  | some (v, rest) => if skipSpace rest = [] then some v else none

mutual
/-- Go `fmt.Sprintf("%v", v)` on a decoded value; `fmtFloat` formats the `float64` of a
number lexeme. -/
def sprintValue (fmtFloat : Str → Str) : JsonValue → Str
  | .null => "<nil>".toList
  | .bool b => if b then "true".toList else "false".toList
  | .number l => fmtFloat l
  | .string s => s
  | .array items => "[".toList ++ sprintItems fmtFloat items ++ "]".toList
  | .object members => "map[".toList ++ sprintMembers fmtFloat members ++ "]".toList
/-- The items of a slice, separated by blanks. -/
def sprintItems (fmtFloat : Str → Str) : List JsonValue → Str
  | [] => []
  | [v] => sprintValue fmtFloat v
  | v :: w :: rest => sprintValue fmtFloat v ++ " ".toList ++ sprintItems fmtFloat (w :: rest)
/-- The entries of a map as `key:value`, separated by blanks. -/
def sprintMembers (fmtFloat : Str → Str) : List (Str × JsonValue) → Str
  | [] => []
  | [(k, v)] => k ++ ":".toList ++ sprintValue fmtFloat v
  | (k, v) :: m :: rest =>
    k ++ ":".toList ++ sprintValue fmtFloat v ++ " ".toList ++ sprintMembers fmtFloat (m :: rest)
end

/-- The codec of `encoding/json` and `fmt`: `json.Unmarshal` into a
`map[string]interface{}` accepts an object, leaves the map nil on `null`, and fails on any
other text. The case mapping is the one of ASCII letters, which is `unicode.ToUpper` on the
ASCII method names of the scenarios. -/
def jsonCodec (fmtFloat : Str → Str) : Codec JsonValue where
  toUpper := Char.toUpper
  unmarshalMap body :=
    match parseJSON body with
    | none => .error "invalid character".toList
    | some (.object members) => .ok (some members)
    | some .null => .ok none
    | some _ => .error "cannot unmarshal into Go value of type map".toList
  sprintV := sprintValue fmtFloat

/-- A `POST` request with the given body. -/
def postRequest (body : Str) : RequestContext where
  path := "/".toList
  method := "POST".toList
  headers := []
  headerValue _ := none
  rawQuery := []
  queryArgs := []
  queryString := []
  body := body

/-- The condition map `type: premium` of the body scenario. -/
def premiumCondition : List (Str × Str) := [("type".toList, "premium".toList)]

/-! ## `internal/proxy/proxy.go`: `proxyRequest` -/

/-- The request `proxyRequest` hands to `client.Do`. -/
structure OutboundRequest where
  method : Str
  url : Str
  header : Header
  body : Str
  /-- The deadline of the request context and of the client, in nanoseconds. -/
  timeout : Int

/-- The `*http.Response` as `proxyRequest` reads it. -/
structure BackendResponse where
  StatusCode : Int
  /-- The header lines of the response. -/
  Header : List (Str × Str)
  /-- The bytes the body delivers before it ends. -/
  body : Str
  /-- The error that ends the body, `none` when it ends with `io.EOF`. -/
  readError : Option Str
  deriving DecidableEq, Repr

/-- The libraries behind `proxyRequest`: the network side of `net/http`, and `unicode`. -/
structure Upstream where
  /-- The case mapping `unicode.ToLower` behind `strings.ToLower`. -/
  toLower : Char → Char
  /-- The call `http.NewRequestWithContext(reqCtx, method, url, body)`: `some err` when the
  method or the URL is rejected. -/
  newRequest : Str → Str → Option Str
  /-- The call `client.Do(req)`: an error (connect, timeout, transport) or the response. -/
  roundTrip : OutboundRequest → Except Str BackendResponse

/-- What `proxyRequest` returns, `(int, string, error)`, and what it has already sent to
the client when it streams. -/
structure ProxyOutcome where
  statusCode : Int
  responseBody : Str
  /-- The text `err.Error()` of the returned error, `none` for a nil error. -/
  err : Option Str
  /-- Whether the streaming branch was taken. -/
  streamed : Bool
  /-- The status set with `c.Status` in the streaming branch. -/
  sentStatus : Option Int
  /-- The header lines copied with `c.Header` in the streaming branch. -/
  sentHeaders : List (Str × Str)
  /-- The bytes written and flushed chunk by chunk in the streaming branch. -/
  sentBody : Str
  deriving DecidableEq, Repr

/-- A return `0, "", err` of `proxyRequest` before anything is sent. -/
def failWith (err : Str) : ProxyOutcome where
  statusCode := 0
  responseBody := []
  err := some err
  streamed := false
  sentStatus := none
  sentHeaders := []
  sentBody := []

/-- The media type of server-sent events. -/
def eventStream : Str := "text/event-stream".toList

/-- The variable `isSSERequest` of `proxyRequest`, read from the outbound request `req`
after `rule.Headers` has been set on it. -/
def isSSERequest (env : Upstream) (c : RequestContext) (rule : ProxyRule) : Bool :=
  Contains
    (ToLower env.toLower (headerGet (outboundHeaders c.headers rule.Headers) "Accept".toList))
    eventStream

/-- The variable `isSSEResponse` of `proxyRequest`. -/
def isSSEResponse (env : Upstream) (resp : BackendResponse) : Bool :=
  Contains (ToLower env.toLower (firstValue "Content-Type".toList resp.Header)) eventStream

/-- The function `proxyRequest`. -/
def proxyRequest (env : Upstream) (c : RequestContext) (rule : ProxyRule) : ProxyOutcome :=
  let url := targetURL c rule
  let timeout := effectiveTimeout rule
  match env.newRequest c.method url with
  | some err => failWith ("创建请求失败: ".toList ++ err)
  | none =>
    let header := outboundHeaders c.headers rule.Headers
    let sseRequest := isSSERequest env c rule
    match env.roundTrip ⟨c.method, url, header, c.body, timeout⟩ with
    | .error err => failWith ("请求失败: ".toList ++ err)
    | .ok resp =>
      let isSSE := sseRequest || isSSEResponse env resp
      if isSSE then
        match resp.readError with
        | some err =>
          { statusCode := resp.StatusCode, responseBody := [],
            err := some ("读取响应流失败: ".toList ++ err), streamed := true,
            sentStatus := some resp.StatusCode, sentHeaders := resp.Header,
            sentBody := resp.body }
        | none =>
          { statusCode := resp.StatusCode, responseBody := "[SSE Stream]".toList,
            err := none, streamed := true, sentStatus := some resp.StatusCode,
            sentHeaders := resp.Header, sentBody := resp.body }
      else
        match resp.readError with
        | some err => failWith ("读取响应失败: ".toList ++ err)
        | none =>
          { statusCode := resp.StatusCode, responseBody := resp.body, err := none,
            streamed := false, sentStatus := none, sentHeaders := [], sentBody := [] }

/-- An upstream that accepts every request and answers it with `resp`; the case mapping is
the one of ASCII letters. -/
def answering (resp : BackendResponse) : Upstream where
  toLower := Char.toLower
  newRequest _ _ := none
  roundTrip _ := .ok resp

/-- A `200` response with a JSON body. -/
def jsonResponse : BackendResponse where
  StatusCode := 200
  Header := [("Content-Type".toList, "application/json".toList)]
  body := "[]".toList
  readError := none

/-- A `200` response that is an event stream. -/
def streamResponse : BackendResponse where
  StatusCode := 200
  Header := [("Content-Type".toList, "text/event-stream".toList)]
  body := "data: 1\n\n".toList
  readError := none

/-- The lookup of a request whose only header line is `name: value`, for a name hertz does
not keep in a field of its own: hertz folds the case of every letter of a name. -/
def singleHeader (name value : Str) : Str → Option Str :=
  fun key => if key.map Char.toLower = name.map Char.toLower then some value else none

/-- A `GET /x` request with the given `Accept` header. -/
def acceptRequest (accept : Str) : RequestContext where
  path := "/x".toList
  method := "GET".toList
  headers := [("Accept".toList, accept)]
  headerValue := singleHeader "Accept".toList accept
  rawQuery := []
  queryArgs := []
  queryString := []
  body := []

/-- Rule A with extra headers. -/
def headerRule (extra : List (Str × Str)) : ProxyRule := { ruleA with Headers := extra }

/-! ## `internal/proxy/proxy.go`: `Handle` -/

/-- The function `extractHeaders`: the first value visited for each header key. -/
def extractHeaders (lines : List (Str × Str)) : List (Str × Str) :=
  lines.foldl
    (fun headers kv => if headers.any (fun e => e.1 = kv.1) then headers else headers ++ [kv])
    []

/-- The call with which `Handle` ends. -/
inductive ClientReply where
  /-- The call `c.Next(ctx)` for an admin route. -/
  | next
  /-- The call `c.AbortWithStatus(status)`. -/
  | abortWithStatus (status : Int)
  /-- The call `c.JSON(status, obj)` with `obj : map[string]string`. -/
  | json (status : Int) (obj : List (Str × Str))
  /-- The call `c.Data(status, contentType, body)`. -/
  | data (status : Int) (contentType : Str) (body : Str)
  deriving DecidableEq, Repr

/-- The state of the logger after `Handle`, its reply to the client, and the outcome of
`proxyRequest` when a rule matched. -/
structure HandleResult where
  logger : Logger
  reply : ClientReply
  forwarded : Option ProxyOutcome
  deriving DecidableEq, Repr

/-- The record `Handle` builds before it knows the outcome. -/
def newRequestLog (startTime : Int) (c : RequestContext) : RequestLog where
  StartTime := startTime
  EndTime := 0
  Duration := 0
  Method := c.method
  Path := c.path
  Query := c.queryString
  Headers := extractHeaders c.headers
  Body := c.body
  StatusCode := 0
  ResponseBody := []
  Target := []
  RuleName := []
  Error := []

/-- The record of a request that matched no rule. -/
def notFoundLog (startTime endTime : Int) (c : RequestContext) : RequestLog :=
  { newRequestLog startTime c with
    EndTime := endTime
    Duration := endTime - startTime
    StatusCode := 404
    ResponseBody := "404 page not found".toList
    Target := []
    RuleName := []
    Error := "没有找到匹配的代理规则".toList }

/-- The record of a forwarded request; `Error` is set only for a non-nil error. -/
def forwardLog (startTime endTime : Int) (c : RequestContext) (rule : ProxyRule)
    (out : ProxyOutcome) : RequestLog :=
  { newRequestLog startTime c with
    Target := rule.Target
    RuleName := rule.Name
    EndTime := endTime
    Duration := endTime - startTime
    StatusCode := out.statusCode
    ResponseBody := out.responseBody
    Error := match out.err with
      | some err => err
      | none => [] }

/-- The function `Handle`. `rules` are `config.GetConfig().Proxy.Rules`, `startTime` and
`endTime` the two readings of `time.Now()`. -/
def Handle {V : Type} (lib : Codec V) (logLib : LogCodec) (env : Upstream)
    (rules : List ProxyRule) (startTime endTime : Int) (s : Logger) (c : RequestContext) :
    HandleResult :=
  if HasPrefix c.path "/admin".toList then ⟨s, .next, none⟩
  else
    match findMatchingRule lib c rules with
    | none =>
      ⟨LogRequest logLib s (notFoundLog startTime endTime c), .abortWithStatus 404, none⟩
    | some rule =>
      let out := proxyRequest env c rule
      let s1 := LogRequest logLib s (forwardLog startTime endTime c rule out)
      match out.err with
      | some err => ⟨s1, .json 502 [("error".toList, "代理请求失败: ".toList ++ err)], some out⟩
      | none => ⟨s1, .data out.statusCode "application/json".toList out.responseBody, some out⟩

/-- An upstream whose round trip fails with the error text `err`. -/
def refusing (err : Str) : Upstream where
  toLower := Char.toLower
  newRequest _ _ := none
  roundTrip _ := .error err

/-- A logger with an open, empty log file and an empty buffer. -/
def freshLogger : Logger := ⟨some ⟨[], true⟩, []⟩

/-! ### The record of a request, as the specification words it -/

/-- The one record the specification expects for a request that `Handle` routes: the
not-found record when no rule matches, the forward record of the matched rule otherwise. -/
def expectedRecord {V : Type} (lib : Codec V) (env : Upstream) (rules : List ProxyRule)
    (startTime endTime : Int) (c : RequestContext) : RequestLog :=
  match findMatchingRule lib c rules with
  | none => notFoundLog startTime endTime c
  | some rule => forwardLog startTime endTime c rule (proxyRequest env c rule)

/-- A request for a route of the administration surface. -/
def adminRequest : RequestContext := getRequest "/admin/api/logs".toList

/-! ### The header dimension, as the specification words it -/

/-- A condition holds when the request carries the header and its first value is the
configured one. -/
def headerConditionHolds (c : RequestContext) (kv : Str × Str) : Prop :=
  c.headerValue kv.1 = some kv.2

/-- A `GET /x` request whose only header line is `X-Flag: value`. -/
def flagRequest (value : Str) : RequestContext where
  path := "/x".toList
  method := "GET".toList
  headers := [("X-Flag".toList, value)]
  headerValue := singleHeader "X-Flag".toList value
  rawQuery := []
  queryArgs := []
  queryString := []
  body := []

/-- The condition map that asks for the header `X-Flag` with the empty value. -/
def emptyValueCondition : List (Str × Str) := [("X-Flag".toList, [])]

/-! ### Sample rules for the header and the method dimension -/

/-- Rule A with the further condition that the header `X-Flag` has the empty value. -/
def flagRule : ProxyRule :=
  { ruleA with Match := ⟨"/x".toList, [], emptyValueCondition, [], []⟩ }

/-- A rule for every path that only tests the method. -/
def methodRule (method : Str) : ProxyRule :=
  { ruleB with Match := ⟨[], method, [], [], []⟩ }

/-! ### The target URL with the raw query, as the specification words it -/

/-- The target URL of the specification: the target without its trailing slash, the
effective path, and `?` with the raw query string when that is not empty. -/
def specTargetURL (c : RequestContext) (rule : ProxyRule) : Str :=
  TrimSuffix rule.Target "/".toList ++ effectivePath c rule ++
    (if c.rawQuery ≠ [] then "?".toList ++ c.rawQuery else [])

/-- The inbound request `GET /api/users?q=a%20b&flag&x=%41`: hertz decodes the query into
the arguments `q` with the value `a b`, `flag` without a value and `x` with the value `A`,
and `QueryString()` encodes them again as `q=a+b&flag&x=A`. -/
def escapedRequest : RequestContext where
  path := "/api/users".toList
  method := "GET".toList
  headers := []
  headerValue _ := none
  rawQuery := "q=a%20b&flag&x=%41".toList
  queryArgs := [("q".toList, "a b".toList), ("flag".toList, []), ("x".toList, "A".toList)]
  queryString := "q=a+b&flag&x=A".toList
  body := []

/-! ### Event-stream detection, as the specification words it -/

/-- The first value a list of `net/http` header lines carries under a header name, `none`
when no line has that name. -/
def firstHeader (key : Str) : List (Str × Str) → Option Str
  | [] => none
  | (k, v) :: rest =>
    if CanonicalMIMEHeaderKey k = CanonicalMIMEHeaderKey key then some v
    else firstHeader key rest

/-- A header value names the event-stream media type: `text/event-stream` occurs in it,
letters being compared without case. -/
def namesEventStream (lower : Char → Char) (value : Str) : Prop :=
  eventStream <:+: value.map lower

instance namesEventStreamDecidable (lower : Char → Char) (value : Str) :
    Decidable (namesEventStream lower value) := by
  unfold namesEventStream
  infer_instance

/-- The first value of a header of the outbound request: the value `rule.Headers` sets
under that name (the entry set last, should several entries share the name), and the first
value of the inbound request when the rule sets none. -/
def outboundFirst (key : Str) (inbound extra : List (Str × Str)) : Option Str :=
  match extra.reverse.find?
      (fun kv => decide (CanonicalMIMEHeaderKey kv.1 = CanonicalMIMEHeaderKey key)) with
  | some kv => some kv.2
  | none => firstHeader key inbound

/-- The outbound request asks for an event stream: its first `Accept` value names the media
type. -/
def requestAcceptsEventStream (lower : Char → Char) (c : RequestContext) (rule : ProxyRule) :
    Prop :=
  ∃ v, outboundFirst "Accept".toList c.headers rule.Headers = some v ∧ namesEventStream lower v

/-- The inbound request carries an `Accept` header whose first value names the media type. -/
def inboundAcceptsEventStream (lower : Char → Char) (c : RequestContext) : Prop :=
  ∃ v, firstHeader "Accept".toList c.headers = some v ∧ namesEventStream lower v

/-- The backend response carries a `Content-Type` header whose first value names the media
type. -/
def responseIsEventStream (lower : Char → Char) (resp : BackendResponse) : Prop :=
  ∃ v, firstHeader "Content-Type".toList resp.Header = some v ∧ namesEventStream lower v

/-- A `200` response whose content type names the event stream in mixed case and with a
parameter, under a header name in lower case. -/
def mixedCaseStreamResponse : BackendResponse where
  StatusCode := 200
  Header := [("content-type".toList, "Text/Event-Stream; charset=utf-8".toList)]
  body := "data: 1\n\n".toList
  readError := none

/-! # Theorems -/

/-! ## The rule matcher -/

theorem matchHeaders_iff (c : RequestContext) (conds : List (Str × Str)) :
    matchHeaders c conds = true ↔ ∀ kv ∈ conds, GetHeader c kv.1 = kv.2 := by
  induction conds with
  | nil => simp [matchHeaders]
  | cons kv rest ih =>
    obtain ⟨k, v⟩ := kv
    by_cases h : GetHeader c k = v <;> simp [matchHeaders, h, ih]

theorem matchQuery_iff (c : RequestContext) (conds : List (Str × Str)) :
    matchQuery c conds = true ↔ ∀ kv ∈ conds, Query c kv.1 = kv.2 := by
  induction conds with
  | nil => simp [matchQuery]
  | cons kv rest ih =>
    obtain ⟨k, v⟩ := kv
    by_cases h : Query c k = v <;> simp [matchQuery, h, ih]

/-- One step of the loop: a rule whose dimensions hold is returned, any other is skipped. -/
theorem findMatchingRule_cons {V : Type} (lib : Codec V) (c : RequestContext)
    (rule : ProxyRule) (rest : List ProxyRule) :
    findMatchingRule lib c (rule :: rest) =
      if passesChecks lib c rule then some rule else findMatchingRule lib c rest := by
  have hH := matchHeaders_iff c rule.Match.Headers
  have hQ := matchQuery_iff c rule.Match.Query
  by_cases hp : rule.Match.Path = [] ∨ rule.Match.Path <+: c.path
  · by_cases hm : rule.Match.Method = [] ∨ ToUpper lib.toUpper rule.Match.Method = ToUpper lib.toUpper c.method
    · by_cases hh : matchHeaders c rule.Match.Headers = true
      · by_cases hq : matchQuery c rule.Match.Query = true
        · by_cases hb : rule.Match.Body = [] ∨ matchBody lib c rule.Match.Body = true
          · have hmatch : passesChecks lib c rule := ⟨hp, hm, hH.1 hh, hQ.1 hq, hb⟩
            rw [if_pos hmatch]
            unfold findMatchingRule
            have hp2 : ¬ (rule.Match.Path ≠ [] ∧ ¬ HasPrefix c.path rule.Match.Path = true) := by
              rintro ⟨h1, h2⟩
              rcases hp with h | h
              · exact h1 h
              · exact h2 (by simpa [HasPrefix] using h)
            have hm2 : ¬ (rule.Match.Method ≠ [] ∧
                ToUpper lib.toUpper rule.Match.Method ≠ ToUpper lib.toUpper c.method) := by
              rintro ⟨h1, h2⟩
              rcases hm with h | h
              · exact h1 h
              · exact h2 h
            have hb2 : ¬ (rule.Match.Body.length > 0 ∧
                ¬ matchBody lib c rule.Match.Body = true) := by
              rintro ⟨h1, h2⟩
              rcases hb with h | h
              · simp [h] at h1
              · exact h2 h
            rw [if_neg hp2, if_neg hm2, if_neg (fun h => h.2 hh), if_neg (fun h => h.2 hq),
              if_neg hb2]
          · have hno : ¬ passesChecks lib c rule := fun h => hb h.2.2.2.2
            rw [if_neg hno]
            conv_lhs => unfold findMatchingRule
            have hb2 : rule.Match.Body.length > 0 ∧
                ¬ matchBody lib c rule.Match.Body = true := by
              push_neg at hb
              exact ⟨List.length_pos.2 hb.1, hb.2⟩
            split_ifs <;> rfl
        · have hno : ¬ passesChecks lib c rule := fun h => hq (hQ.2 h.2.2.2.1)
          rw [if_neg hno]
          conv_lhs => unfold findMatchingRule
          have hq2 : rule.Match.Query.length > 0 ∧
              ¬ matchQuery c rule.Match.Query = true := by
            refine ⟨?_, hq⟩
            rcases hl : rule.Match.Query with _ | ⟨a, l⟩
            · simp [hl, matchQuery] at hq
            · simp
          split_ifs <;> rfl
      · have hno : ¬ passesChecks lib c rule := fun h => hh (hH.2 h.2.2.1)
        rw [if_neg hno]
        conv_lhs => unfold findMatchingRule
        have hh2 : rule.Match.Headers.length > 0 ∧
            ¬ matchHeaders c rule.Match.Headers = true := by
          refine ⟨?_, hh⟩
          rcases hl : rule.Match.Headers with _ | ⟨a, l⟩
          · simp [hl, matchHeaders] at hh
          · simp
        split_ifs <;> rfl
    · have hno : ¬ passesChecks lib c rule := fun h => hm h.2.1
      rw [if_neg hno]
      conv_lhs => unfold findMatchingRule
      have hm2 : rule.Match.Method ≠ [] ∧ ToUpper lib.toUpper rule.Match.Method ≠ ToUpper lib.toUpper c.method := by
        push_neg at hm
        exact hm
      split_ifs <;> rfl
  · have hno : ¬ passesChecks lib c rule := fun h => hp h.1
    rw [if_neg hno]
    conv_lhs => unfold findMatchingRule
    have hp2 : rule.Match.Path ≠ [] ∧ ¬ HasPrefix c.path rule.Match.Path = true := by
      push_neg at hp
      exact ⟨hp.1, by simpa [HasPrefix] using hp.2⟩
    rw [if_pos hp2]

/-- The loop returns `none` exactly when no rule of the list matches. -/
theorem findMatchingRule_eq_none {V : Type} (lib : Codec V) (c : RequestContext)
    (rules : List ProxyRule) :
    findMatchingRule lib c rules = none ↔ ∀ r ∈ rules, ¬ passesChecks lib c r := by
  induction rules with
  | nil => simp [findMatchingRule]
  | cons rule rest ih =>
    rw [findMatchingRule_cons]
    by_cases h : passesChecks lib c rule
    · simp [h]
    · simp [h, ih]

/-- The loop returns `r` exactly when `r` matches and stands behind rules that do not. -/
theorem findMatchingRule_eq_some {V : Type} (lib : Codec V) (c : RequestContext)
    (rules : List ProxyRule) (r : ProxyRule) :
    findMatchingRule lib c rules = some r ↔
      ∃ pre post, rules = pre ++ r :: post ∧ passesChecks lib c r ∧
        ∀ q ∈ pre, ¬ passesChecks lib c q := by
  induction rules with
  | nil => simp [findMatchingRule]
  | cons rule rest ih =>
    rw [findMatchingRule_cons]
    by_cases h : passesChecks lib c rule
    · rw [if_pos h]
      constructor
      · intro e
        cases e
        exact ⟨[], rest, rfl, h, by simp⟩
      · rintro ⟨pre, post, e, _, hpre⟩
        cases pre with
        | nil =>
          simp only [List.nil_append, List.cons.injEq] at e
          rw [e.1]
        | cons q pre =>
          simp only [List.cons_append, List.cons.injEq] at e
          exact absurd (e.1 ▸ h) (hpre q (List.mem_cons_self _ _))
    · rw [if_neg h, ih]
      constructor
      · rintro ⟨pre, post, e, hr, hpre⟩
        refine ⟨rule :: pre, post, by simp [e], hr, ?_⟩
        intro q hq
        rcases List.mem_cons.1 hq with hq | hq
        · exact hq ▸ h
        · exact hpre q hq
      · rintro ⟨pre, post, e, hr, hpre⟩
        cases pre with
        | nil =>
          simp only [List.nil_append, List.cons.injEq] at e
          exact absurd (e.1 ▸ hr) h
        | cons q pre =>
          simp only [List.cons_append, List.cons.injEq] at e
          exact ⟨pre, post, e.2, hr, fun x hx => hpre x (List.mem_cons_of_mem _ hx)⟩

/-! ## The target URL -/

theorem firstOccurrence_cons_of_not_prefix (c : Char) (t old : Str)
    (h : old.isPrefixOf (c :: t) = false) :
    firstOccurrence (c :: t) old = (firstOccurrence t old).map Nat.succ := by
  unfold firstOccurrence
  rw [List.length_cons, List.range_succ_eq_map, List.find?_cons]
  simp only [List.drop_zero, h]
  rw [List.find?_map]
  rfl

/-- `strings.Replace(s, old, new, 1)` cuts `s` at the first occurrence of `old`. -/
theorem ReplaceFirst_eq (old new : Str) (s : Str) :
    ReplaceFirst s old new =
      match firstOccurrence s old with
      | none => s
      | some i => s.take i ++ new ++ s.drop (i + old.length) := by
  induction s with
  | nil =>
    unfold ReplaceFirst firstOccurrence
    by_cases h : old.isPrefixOf [] = true
    · simp [h, List.range_succ]
    · simp [h, List.range_succ]
  | cons c t ih =>
    by_cases h : old.isPrefixOf (c :: t) = true
    · have h0 : firstOccurrence (c :: t) old = some 0 := by
        unfold firstOccurrence
        rw [List.length_cons, List.range_succ_eq_map, List.find?_cons]
        simp [h]
      unfold ReplaceFirst
      rw [if_pos h, h0]
      simp
    · have hf : old.isPrefixOf (c :: t) = false := Bool.eq_false_iff.2 h
      unfold ReplaceFirst
      rw [if_neg h, firstOccurrence_cons_of_not_prefix c t old hf]
      show c :: ReplaceFirst t old new = _
      rw [ih]
      cases firstOccurrence t old with
      | none => rfl
      | some i => simp [Nat.succ_add]

theorem TrimSuffix_append (t suf : Str) : TrimSuffix (t ++ suf) suf = t := by
  unfold TrimSuffix
  have h : suf.isSuffixOf (t ++ suf) = true := by
    rw [List.isSuffixOf_iff_suffix]
    exact List.suffix_append t suf
  rw [if_pos h]
  simp

/-! ## The header overlay -/

theorem overlayHeaders_of_not_mem (extra : List (Str × Str)) (h : Header) (name : Str)
    (hn : name ∉ extra.map (fun kv => CanonicalMIMEHeaderKey kv.1)) :
    overlayHeaders extra h name = h name := by
  induction extra generalizing h with
  | nil => rfl
  | cons kv rest ih =>
    simp only [List.map_cons, List.mem_cons, not_or] at hn
    show overlayHeaders rest (headerSet h kv.1 kv.2) name = h name
    rw [ih _ hn.2]
    unfold headerSet
    exact Function.update_noteq hn.1 _ _

theorem overlayHeaders_of_mem (extra : List (Str × Str)) (h : Header)
    (hd : distinctHeaderNames extra) (kv : Str × Str) (hkv : kv ∈ extra) :
    overlayHeaders extra h (CanonicalMIMEHeaderKey kv.1) = [kv.2] := by
  induction extra generalizing h with
  | nil => simp at hkv
  | cons e rest ih =>
    unfold distinctHeaderNames at hd
    simp only [List.map_cons, List.nodup_cons] at hd
    show overlayHeaders rest (headerSet h e.1 e.2) (CanonicalMIMEHeaderKey kv.1) = [kv.2]
    rcases List.mem_cons.1 hkv with heq | hmem
    · subst heq
      rw [overlayHeaders_of_not_mem rest _ _ hd.1]
      unfold headerSet
      exact Function.update_same _ _ _
    · exact ih _ hd.2 hmem

theorem headerSet_comm (h : Header) (x y : Str × Str)
    (hxy : CanonicalMIMEHeaderKey x.1 = CanonicalMIMEHeaderKey y.1 → x = y) :
    headerSet (headerSet h x.1 x.2) y.1 y.2 = headerSet (headerSet h y.1 y.2) x.1 x.2 := by
  by_cases hc : CanonicalMIMEHeaderKey x.1 = CanonicalMIMEHeaderKey y.1
  · rw [hxy hc]
  · unfold headerSet
    exact Function.update_comm hc _ _ _

theorem eq_of_canonical_eq (extra : List (Str × Str)) (hd : distinctHeaderNames extra)
    (x y : Str × Str) (hx : x ∈ extra) (hy : y ∈ extra)
    (hc : CanonicalMIMEHeaderKey x.1 = CanonicalMIMEHeaderKey y.1) : x = y :=
  List.inj_on_of_nodup_map hd hx hy hc

/-- The overlay does not depend on the order in which the map is visited, as long as no
two keys share a canonical name. -/
theorem overlayHeaders_perm (extra other : List (Str × Str)) (h : Header)
    (hd : distinctHeaderNames extra) (hp : extra.Perm other) :
    overlayHeaders extra h = overlayHeaders other h := by
  unfold overlayHeaders
  refine List.Perm.foldl_eq' hp ?_ h
  intro x hx y hy z
  exact headerSet_comm z x y (eq_of_canonical_eq extra hd x y hx hy)

/-- C3, as the claim states it, fails: the map with the keys `x-foo` and `X-Foo` has
distinct keys, yet after the overlay its entry `x-foo: a` is not what the outbound request
carries under that name, and visiting the same map in the other order builds a different
outbound header. -/
theorem outboundHeaders_clash :
    distinctKeys clashingHeaders ∧
      ("x-foo".toList, "a".toList) ∈ clashingHeaders ∧
      outboundHeaders [] clashingHeaders (CanonicalMIMEHeaderKey "x-foo".toList) =
        ["b".toList] ∧
      outboundHeaders [] clashingHeaders.reverse (CanonicalMIMEHeaderKey "x-foo".toList) =
        ["a".toList] ∧
      outboundHeaders [] clashingHeaders ≠ outboundHeaders [] clashingHeaders.reverse := by
  have h1 : outboundHeaders [] clashingHeaders (CanonicalMIMEHeaderKey "x-foo".toList) =
      ["b".toList] := by decide
  have h2 : outboundHeaders [] clashingHeaders.reverse
      (CanonicalMIMEHeaderKey "x-foo".toList) = ["a".toList] := by decide
  refine ⟨by decide, by decide, h1, h2, ?_⟩
  intro heq
  rw [heq, h2] at h1
  exact absurd h1 (by decide)

/-- C3, amended: when no two keys of `rule.Headers` share a canonical header name, the
outbound header is the same whatever order the map is visited in (building it twice gives
identical headers), every entry of `rule.Headers` is carried as exactly one value, the
configured one, whatever the inbound request carried under that name, and every other
name keeps the inbound values. -/
theorem outboundHeaders_overlay (inbound extra : List (Str × Str))
    (hd : distinctHeaderNames extra) :
    (∀ other, extra.Perm other → outboundHeaders inbound other = outboundHeaders inbound extra) ∧
    (∀ kv ∈ extra, outboundHeaders inbound extra (CanonicalMIMEHeaderKey kv.1) = [kv.2] ∧
        headerGet (outboundHeaders inbound extra) kv.1 = kv.2) ∧
    (∀ name, name ∉ extra.map (fun kv => CanonicalMIMEHeaderKey kv.1) →
        outboundHeaders inbound extra name = copyHeaders inbound emptyHeader name) := by
  refine ⟨?_, ?_, ?_⟩
  · intro other hp
    exact (overlayHeaders_perm extra other _ hd hp).symm
  · intro kv hkv
    have h := overlayHeaders_of_mem extra (copyHeaders inbound emptyHeader) hd kv hkv
    refine ⟨h, ?_⟩
    unfold headerGet
    unfold outboundHeaders
    rw [h]
    rfl
  · intro name hn
    exact overlayHeaders_of_not_mem extra _ name hn

/-- The amended C3 on an inbound request that already carries `X-Foo` twice. -/
theorem outboundHeaders_overlay_witness :
    distinctHeaderNames [("X-Foo".toList, "a".toList)] ∧
      outboundHeaders [("x-foo".toList, "old".toList), ("X-Foo".toList, "older".toList)]
        [("X-Foo".toList, "a".toList)] (CanonicalMIMEHeaderKey "X-Foo".toList) =
          ["a".toList] :=
  ⟨by decide,
    ((outboundHeaders_overlay
      [("x-foo".toList, "old".toList), ("X-Foo".toList, "older".toList)]
      [("X-Foo".toList, "a".toList)] (by decide)).2.1
        ("X-Foo".toList, "a".toList) (by simp)).1⟩

/-! ## The timeout -/

/-- Within the range in which the product with `time.Second` fits in an `int64`, the
timeout is 30 seconds exactly for a configured `0`, and the configured seconds otherwise. -/
theorem effectiveTimeout_in_range (rule : ProxyRule)
    (hlo : -9223372036 ≤ rule.Timeout) (hhi : rule.Timeout ≤ 9223372036) :
    effectiveTimeout rule = (if rule.Timeout = 0 then 30 * Second else rule.Timeout * Second) ∧
      (effectiveTimeout rule = 30 * Second ↔ rule.Timeout = 0 ∨ rule.Timeout = 30) := by
  have hw : wrapInt64 (rule.Timeout * Second) = rule.Timeout * Second := by
    unfold wrapInt64 Second
    rw [Int.emod_eq_of_lt (by omega) (by omega)]
    omega
  unfold effectiveTimeout
  simp only [hw]
  unfold Second
  constructor
  · by_cases h0 : rule.Timeout = 0
    · simp [h0]
    · rw [if_neg (by omega), if_neg h0]
  · by_cases h0 : rule.Timeout = 0
    · simp [h0]
    · rw [if_neg (by omega)]
      omega

/-- C4 at a configured timeout of `2 ^ 55` seconds, a value a Go `int` holds: the product
with `time.Second` wraps to `0`, so the timeout is 30 seconds although the configured
value is neither `0` nor absent; and at `9223372037` seconds the product wraps to a
negative duration, not the configured seconds. -/
theorem effectiveTimeout_overflow :
    isInt64 (2 ^ 55) ∧ (2 : Int) ^ 55 ≠ 0 ∧
      effectiveTimeout (timeoutRule (2 ^ 55)) = 30 * Second ∧
      isInt64 9223372037 ∧
      effectiveTimeout (timeoutRule 9223372037) = -9223372036709551616 ∧
      effectiveTimeout (timeoutRule 9223372037) ≠ 9223372037 * Second := by
  unfold isInt64 effectiveTimeout timeoutRule wrapInt64 Second
  simp only [ruleA, pathRule]
  norm_num

/-! ## The log buffer -/

theorem flushLoop_writable (lib : LogCodec) (f : LogFile) (logs : List RequestLog)
    (hw : f.writable = true) :
    flushLoop lib f logs = { content := f.content ++ flushText lib logs, writable := true } := by
  induction logs generalizing f with
  | nil =>
    cases f
    simp_all [flushLoop, flushText]
  | cons log rest ih =>
    unfold flushLoop
    cases hm : lib.marshal log with
    | error e =>
      simp only []
      rw [ih _ (by simp [WriteString, hw])]
      simp [WriteString, hw, flushText, List.flatMap_cons, hm]
    | ok j =>
      simp only []
      rw [ih _ (by simp [WriteString, hw])]
      simp [WriteString, hw, flushText, List.flatMap_cons, hm]

theorem flushText_append (lib : LogCodec) (a b : List RequestLog) :
    flushText lib (a ++ b) = flushText lib a ++ flushText lib b := by
  simp [flushText, List.flatMap_append]

theorem flushText_eq_jsonLines (lib : LogCodec) (logs : List RequestLog)
    (hm : ∀ r ∈ logs, ∃ j, lib.marshal r = .ok j) :
    flushText lib logs = jsonLines lib logs := by
  induction logs with
  | nil => rfl
  | cons r rest ih =>
    obtain ⟨j, hj⟩ := hm r (List.mem_cons_self _ _)
    have ih2 := ih (fun x hx => hm x (List.mem_cons_of_mem _ hx))
    simp only [flushText, jsonLines, List.flatMap_cons, hj] at ih2 ⊢
    rw [ih2]

/-- With an open, writable file, a sequence of `LogRequest` calls leaves some tail of the
records in the buffer, fewer than `bufferSize`, and the others in the file. -/
theorem logAll_open (lib : LogCodec) (logs : List RequestLog) (f : LogFile)
    (buf : List RequestLog) (hw : f.writable = true) (hb : buf.length < bufferSize) :
    ∃ flushed pending, buf ++ logs = flushed ++ pending ∧ pending.length < bufferSize ∧
      logAll lib ⟨some f, buf⟩ logs =
        ⟨some { content := f.content ++ flushText lib flushed, writable := true }, pending⟩ := by
  induction logs generalizing f buf with
  | nil =>
    refine ⟨[], buf, by simp, hb, ?_⟩
    cases f
    simp_all [logAll, flushText]
  | cons r rest ih =>
    by_cases hfull : (buf ++ [r]).length ≥ bufferSize
    · have hstep : LogRequest lib ⟨some f, buf⟩ r =
          ⟨some { content := f.content ++ flushText lib (buf ++ [r]), writable := true }, []⟩ := by
        simp only [LogRequest, if_pos hfull, flushLogsLocked]
        rw [flushLoop_writable lib f _ hw]
      obtain ⟨fl, pe, h1, h2, h3⟩ :=
        ih { content := f.content ++ flushText lib (buf ++ [r]), writable := true } [] rfl
          (by simp [bufferSize])
      refine ⟨(buf ++ [r]) ++ fl, pe, ?_, h2, ?_⟩
      · simp only [List.nil_append] at h1
        simp [h1]
      · show logAll lib (LogRequest lib ⟨some f, buf⟩ r) rest = _
        rw [hstep, h3, flushText_append lib (buf ++ [r]) fl]
        simp only [List.append_assoc]
    · have hstep : LogRequest lib ⟨some f, buf⟩ r = ⟨some f, buf ++ [r]⟩ := by
        simp only [LogRequest, if_neg hfull]
      obtain ⟨fl, pe, h1, h2, h3⟩ := ih f (buf ++ [r]) hw (by omega)
      refine ⟨fl, pe, by simpa using h1, h2, ?_⟩
      show logAll lib (LogRequest lib ⟨some f, buf⟩ r) rest = _
      rw [hstep, h3]

/-- With a nil `logFile` no flush ever clears the buffer. -/
theorem logAll_nil_file (lib : LogCodec) (logs buf : List RequestLog) :
    logAll lib ⟨none, buf⟩ logs = ⟨none, buf ++ logs⟩ := by
  induction logs generalizing buf with
  | nil => simp [logAll]
  | cons r rest ih =>
    show logAll lib (LogRequest lib ⟨none, buf⟩ r) rest = _
    have hstep : LogRequest lib ⟨none, buf⟩ r = ⟨none, buf ++ [r]⟩ := by
      simp only [LogRequest, flushLogsLocked]
      split <;> rfl
    rw [hstep, ih]
    simp


/-- C5, as the claim states it, fails: `Close` leaves a closed handle in `logFile`, and on a
handle that takes no writes a later `LogRequest` followed by `Close` empties the buffer
while the record appears nowhere in the file. -/
theorem close_drops_record_on_failed_write :
    Close pathCodec ⟨some ⟨[], true⟩, []⟩ = ⟨some ⟨[], false⟩, []⟩ ∧
      Close pathCodec (logAll pathCodec ⟨some ⟨[], false⟩, []⟩ [pathLog "/x".toList]) =
        ⟨some ⟨[], false⟩, []⟩ ∧
      jsonLines pathCodec [pathLog "/x".toList] = "\"path\":\"/x\"\n".toList := by
  decide

/-- C5, amended: when the log file is open and takes writes, fewer than `bufferSize`
records are buffered and every record serialises, then after any sequence of `LogRequest`
calls followed by `Close` the buffer is empty and the file holds what it held before
followed by one JSON line per record, in append order. -/
theorem close_flushes_all (lib : LogCodec) (f : LogFile) (buf logs : List RequestLog)
    (hw : f.writable = true) (hb : buf.length < bufferSize)
    (hm : ∀ r ∈ buf ++ logs, ∃ j, lib.marshal r = .ok j) :
    Close lib (logAll lib ⟨some f, buf⟩ logs) =
      ⟨some { content := f.content ++ jsonLines lib (buf ++ logs), writable := false }, []⟩ := by
  obtain ⟨fl, pe, h1, _, h3⟩ := logAll_open lib logs f buf hw hb
  rw [h3, ← flushText_eq_jsonLines lib _ hm, h1, flushText_append]
  unfold Close
  by_cases hp : pe.length > 0
  · simp only [hp, if_true, flushLogsLocked]
    rw [flushLoop_writable lib _ _ rfl]
    simp
  · have hnil : pe = [] := by
      cases pe with
      | nil => rfl
      | cons a l => simp at hp
    subst hnil
    simp [flushText]

/-- The amended C5 on two records and an empty file. -/
theorem close_flushes_all_witness :
    Close pathCodec
        (logAll pathCodec ⟨some ⟨[], true⟩, []⟩ [pathLog "/a".toList, pathLog "/b".toList]) =
      ⟨some { content := [] ++ jsonLines pathCodec ([] ++ [pathLog "/a".toList,
        pathLog "/b".toList]), writable := false }, []⟩ :=
  close_flushes_all pathCodec ⟨[], true⟩ [] [pathLog "/a".toList, pathLog "/b".toList] rfl
    (by decide) (by intro r _; exact ⟨_, rfl⟩)

/-- With a log file (open or not), one `LogRequest` on a buffer below capacity flushes
exactly when the append brings the length to `bufferSize`, a flush clears the buffer, and
the buffer stays below capacity. -/
theorem LogRequest_with_file (lib : LogCodec) (f : LogFile) (buf : List RequestLog)
    (r : RequestLog) (hb : buf.length < bufferSize) :
    (buf.length + 1 = bufferSize →
        LogRequest lib ⟨some f, buf⟩ r = flushLogsLocked lib ⟨some f, buf ++ [r]⟩) ∧
      (buf.length + 1 ≠ bufferSize → LogRequest lib ⟨some f, buf⟩ r = ⟨some f, buf ++ [r]⟩) ∧
      (flushLogsLocked lib ⟨some f, buf ++ [r]⟩).logBuffer = [] ∧
      (LogRequest lib ⟨some f, buf⟩ r).logBuffer.length < bufferSize ∧
      (LogRequest lib ⟨some f, buf⟩ r).logFile.isSome = true := by
  have hlen : (buf ++ [r]).length = buf.length + 1 := by simp
  refine ⟨?_, ?_, rfl, ?_, ?_⟩
  · intro h
    simp only [LogRequest, hlen, h, ge_iff_le, le_refl, if_true]
  · intro h
    have : ¬ (buf.length + 1 ≥ bufferSize) := by omega
    simp only [LogRequest, hlen, this, if_false]
  · by_cases h : buf.length + 1 ≥ bufferSize
    · simp only [LogRequest, hlen, h, if_true, flushLogsLocked]
      simp [bufferSize]
    · simp only [LogRequest, hlen, h, if_false]
      omega
  · by_cases h : buf.length + 1 ≥ bufferSize
    · simp only [LogRequest, hlen, h, if_true, flushLogsLocked]
      rfl
    · simp only [LogRequest, hlen, h, if_false]
      rfl

/-- With a log file, after every sequence of `LogRequest` calls from an empty buffer the
buffer holds fewer than `bufferSize` records. -/
theorem logAll_bounded_with_file (lib : LogCodec) (logs : List RequestLog) (f : LogFile)
    (buf : List RequestLog) (hb : buf.length < bufferSize) :
    (logAll lib ⟨some f, buf⟩ logs).logBuffer.length < bufferSize := by
  induction logs generalizing f buf with
  | nil => exact hb
  | cons r rest ih =>
    show (logAll lib (LogRequest lib ⟨some f, buf⟩ r) rest).logBuffer.length < bufferSize
    obtain ⟨_, _, _, h4, h5⟩ := LogRequest_with_file lib f buf r hb
    rcases hs : LogRequest lib ⟨some f, buf⟩ r with ⟨file, b⟩
    rw [hs] at h4 h5
    cases file with
    | none => simp at h5
    | some g => exact ih g b h4

/-- C6 on a nil `logFile` (the state `InitLogger` leaves when the log file cannot be
opened): starting from an empty buffer, 150 `LogRequest` calls leave 150 records in the
buffer, and the flush that the 100th append triggers clears nothing. -/
theorem logBuffer_grows_without_file :
    (logAll pathCodec ⟨none, []⟩ (List.replicate 150 (pathLog "/x".toList))).logBuffer.length
        = 150 ∧
      ¬ (150 < bufferSize) ∧
      (flushLogsLocked pathCodec
        ⟨none, List.replicate 100 (pathLog "/x".toList)⟩).logBuffer.length = 100 := by
  rw [logAll_nil_file]
  refine ⟨by simp, by decide, by simp [flushLogsLocked]⟩

/-! ## The tail read -/

theorem tailLoop_eq (lib : LogCodec) (limit : Int) (lines : List Str) (count : Int)
    (logs : List RequestLog) :
    tailLoop lib limit lines count logs =
      logs ++ (lines.filterMap (parseLine lib)).take (limit - count).toNat := by
  induction lines generalizing count logs with
  | nil => simp [tailLoop]
  | cons raw rest ih =>
    unfold tailLoop
    by_cases hc : count < limit
    · rw [if_pos hc]
      simp only []
      by_cases hb : TrimSpace raw = []
      · rw [if_pos hb, ih]
        simp [List.filterMap_cons, parseLine, hb]
      · rw [if_neg hb]
        cases hu : lib.unmarshal (TrimSpace raw) with
        | error e =>
          simp only []
          rw [ih]
          simp [List.filterMap_cons, parseLine, hb, hu]
        | ok log =>
          simp only []
          rw [ih]
          have hk : (limit - count).toNat = (limit - (count + 1)).toNat + 1 := by omega
          rw [hk]
          simp [List.filterMap_cons, parseLine, hb, hu]
    · rw [if_neg hc]
      have hk : (limit - count).toNat = 0 := by omega
      rw [hk]
      simp

/-- C7: for every content of the log file and every integer limit, `GetLogs` returns
without error the first `limit` records of the read window taken from its last line
backwards (most recent first), where blank lines and lines that do not parse stand for no
record and do not count; the list has at most `limit` records and is empty for
`limit ≤ 0`; on a file with two records, a blank line and a malformed line, limit 1 gives
the newer record and limit 5 gives both, newer first. -/
theorem GetLogs_tail (lib : LogCodec) (s : Logger) (content : Str) (limit : Int) :
    (GetLogs lib true (.ok content) s limit).2 =
        .ok ((recentRecords lib content).take limit.toNat) ∧
      (((recentRecords lib content).take limit.toNat).length : Int) ≤ max limit 0 ∧
      (limit ≤ 0 → (GetLogs lib true (.ok content) s limit).2 = .ok []) ∧
      (GetLogs pathCodec true (.ok sampleLogFile) s 1).2 = .ok [pathLog "/b".toList] ∧
      (GetLogs pathCodec true (.ok sampleLogFile) s 5).2 =
        .ok [pathLog "/b".toList, pathLog "/a".toList] := by
  have hget : ∀ (l : LogCodec) (c : Str) (n : Int),
      (GetLogs l true (.ok c) s n).2 = .ok ((recentRecords l c).take n.toNat) := by
    intro l c n
    simp [GetLogs, tailLoop_eq, recentRecords]
  refine ⟨hget lib content limit, ?_, ?_, ?_, ?_⟩
  · have := List.length_take_le limit.toNat (recentRecords lib content)
    omega
  · intro h
    rw [hget]
    have : limit.toNat = 0 := by omega
    rw [this]
    rfl
  · rw [hget]
    exact congrArg Except.ok (by decide)
  · rw [hget]
    exact congrArg Except.ok (by decide)

/-! ## The body matcher -/

theorem matchBodyLoop_iff {V : Type} (lib : Codec V) (bodyMap : Option (List (Str × V)))
    (conds : List (Str × Str)) :
    matchBodyLoop lib bodyMap conds = true ↔
      ∀ kv ∈ conds, ∃ v, bodyMap.bind (mapLookup kv.1) = some v ∧ lib.sprintV v = kv.2 := by
  induction conds with
  | nil => simp [matchBodyLoop]
  | cons kv rest ih =>
    obtain ⟨k, x⟩ := kv
    unfold matchBodyLoop
    cases hl : bodyMap.bind (mapLookup k) with
    | none => simp [hl]
    | some v =>
      by_cases hv : lib.sprintV v = x
      · simp [hl, hv, ih]
      · simp [hl, hv]

/-- C8: for a non-empty condition map (and a decoder that rejects the empty input, as
`json.Unmarshal` does), `matchBody` returns true exactly when the request body decodes to a
JSON object in which every configured key exists at the top level with a value whose `%v`
text equals the configured string; an empty body, a body that does not decode, and the
body `null` (no object) give false, no error being raised; with the JSON decoder, the body
`{"type":"premium"}` matches the condition `type: premium`, the body `{"type":"free"}`
does not, and neither do a malformed body, an array, or `null`. -/
theorem matchBody_iff {V : Type} (lib : Codec V) (c : RequestContext)
    (conds : List (Str × Str)) (hne : conds ≠ [])
    (hempty : ∃ e, lib.unmarshalMap [] = .error e) :
    (matchBody lib c conds = true ↔
        ∃ m, lib.unmarshalMap c.body = .ok (some m) ∧
          ∀ kv ∈ conds, ∃ v, mapLookup kv.1 m = some v ∧ lib.sprintV v = kv.2) ∧
      (c.body = [] → matchBody lib c conds = false) ∧
      ((∃ e, lib.unmarshalMap c.body = .error e) → matchBody lib c conds = false) ∧
      (lib.unmarshalMap c.body = .ok none → matchBody lib c conds = false) ∧
      (∀ fmtFloat,
        matchBody (jsonCodec fmtFloat) (postRequest "\x7b\"type\":\"premium\"\x7d".toList)
            premiumCondition = true ∧
          matchBody (jsonCodec fmtFloat) (postRequest "\x7b\"type\":\"free\"\x7d".toList)
            premiumCondition = false ∧
          matchBody (jsonCodec fmtFloat) (postRequest "\x7b\"type\":".toList)
            premiumCondition = false ∧
          matchBody (jsonCodec fmtFloat) (postRequest "[\"type\"]".toList)
            premiumCondition = false ∧
          matchBody (jsonCodec fmtFloat) (postRequest "null".toList)
            premiumCondition = false) := by
  obtain ⟨e0, he0⟩ := hempty
  obtain ⟨kv0, rest0, hcons⟩ := List.exists_cons_of_ne_nil hne
  have hnone : matchBodyLoop lib none conds = false := by
    rw [hcons]
    obtain ⟨k, x⟩ := kv0
    simp [matchBodyLoop]
  refine ⟨?_, ?_, ?_, ?_, ?_⟩
  · unfold matchBody
    by_cases hb : c.body.length = 0
    · have hnil : c.body = [] := List.length_eq_zero.1 hb
      simp only [hb, if_true]
      constructor
      · intro h
        cases h
      · rintro ⟨m, hm, _⟩
        rw [hnil, he0] at hm
        cases hm
    · rw [if_neg hb]
      cases hu : lib.unmarshalMap c.body with
      | error e =>
        constructor
        · intro h
          cases h
        · rintro ⟨m, hm, _⟩
          cases hm
      | ok bodyMap =>
        cases bodyMap with
        | none =>
          show matchBodyLoop lib none conds = true ↔ _
          rw [hnone]
          constructor
          · intro h
            cases h
          · rintro ⟨m, hm, _⟩
            cases hm
        | some m =>
          show matchBodyLoop lib (some m) conds = true ↔ _
          rw [matchBodyLoop_iff]
          constructor
          · intro h
            exact ⟨m, rfl, h⟩
          · rintro ⟨m2, hm, h⟩
            cases hm
            exact h
  · intro hb
    simp [matchBody, hb]
  · rintro ⟨e, he⟩
    unfold matchBody
    split
    · rfl
    · simp [he]
  · intro hn
    unfold matchBody
    split
    · rfl
    · simp [hn, hnone]
  · intro fmtFloat
    exact ⟨rfl, rfl, rfl, rfl, rfl⟩

/-- C8 on the body `{"type":"premium"}` and the condition `type: premium`. -/
theorem matchBody_iff_witness :
    premiumCondition ≠ [] ∧ (∃ e, (jsonCodec id).unmarshalMap [] = .error e) ∧
      matchBody (jsonCodec id) (postRequest "\x7b\"type\":\"premium\"\x7d".toList)
        premiumCondition = true :=
  ⟨by decide, ⟨_, rfl⟩,
    (matchBody_iff (jsonCodec id) (postRequest "\x7b\"type\":\"premium\"\x7d".toList)
      premiumCondition (by decide) ⟨_, rfl⟩).1.2
        ⟨[("type".toList, JsonValue.string "premium".toList)], rfl, by
          intro kv hkv
          simp only [premiumCondition, List.mem_singleton] at hkv
          subst hkv
          exact ⟨JsonValue.string "premium".toList, rfl, rfl⟩⟩⟩

/-! ## Stream detection -/

theorem copyHeaders_apply (inbound : List (Str × Str)) (h : Header) (name : Str) :
    copyHeaders inbound h name =
      h name ++ inbound.filterMap
        (fun kv => if CanonicalMIMEHeaderKey kv.1 = name then some kv.2 else none) := by
  induction inbound generalizing h with
  | nil => simp [copyHeaders]
  | cons kv rest ih =>
    show copyHeaders rest (headerAdd h kv.1 kv.2) name = _
    rw [ih]
    unfold headerAdd
    by_cases hk : CanonicalMIMEHeaderKey kv.1 = name
    · subst hk
      simp [List.filterMap_cons]
    · rw [Function.update_noteq (Ne.symm hk)]
      simp [List.filterMap_cons, hk]

theorem firstValue_eq_head (key : Str) (lines : List (Str × Str)) :
    firstValue key lines =
      (lines.filterMap (fun kv =>
        if CanonicalMIMEHeaderKey kv.1 = CanonicalMIMEHeaderKey key then some kv.2
        else none)).headD [] := by
  induction lines with
  | nil => rfl
  | cons kv rest ih =>
    obtain ⟨k, v⟩ := kv
    unfold firstValue
    by_cases hk : CanonicalMIMEHeaderKey k = CanonicalMIMEHeaderKey key
    · simp [List.filterMap_cons, hk]
    · simp [List.filterMap_cons, hk, ih]

/-- The call `Header.Get` gives the first value carried, and `""` for an absent header. -/
theorem firstValue_eq_firstHeader (key : Str) (lines : List (Str × Str)) :
    firstValue key lines = (firstHeader key lines).getD [] := by
  induction lines with
  | nil => rfl
  | cons kv rest ih =>
    obtain ⟨k, v⟩ := kv
    unfold firstValue firstHeader
    by_cases hk : CanonicalMIMEHeaderKey k = CanonicalMIMEHeaderKey key
    · simp [hk]
    · simp [hk, ih]

/-- After the `range rule.Headers` loop a name holds the value of the last entry set under
it, and what it held before when no entry has that name. -/
theorem overlayHeaders_apply (extra : List (Str × Str)) (h : Header) (key : Str) :
    overlayHeaders extra h (CanonicalMIMEHeaderKey key) =
      match extra.reverse.find?
          (fun kv => decide (CanonicalMIMEHeaderKey kv.1 = CanonicalMIMEHeaderKey key)) with
      | some kv => [kv.2]
      | none => h (CanonicalMIMEHeaderKey key) := by
  induction extra using List.reverseRecOn with
  | nil => rfl
  | append_singleton l a ih =>
    have hstep : overlayHeaders (l ++ [a]) h = headerSet (overlayHeaders l h) a.1 a.2 := by
      unfold overlayHeaders
      rw [List.foldl_append]
      rfl
    rw [hstep, List.reverse_append, List.reverse_singleton, List.singleton_append,
      List.find?_cons]
    unfold headerSet
    by_cases hk : CanonicalMIMEHeaderKey a.1 = CanonicalMIMEHeaderKey key
    · simp only [hk, decide_True]
      rw [← hk, Function.update_same]
    · simp only [hk, decide_False]
      rw [Function.update_noteq (Ne.symm hk)]
      exact ih

/-- The call `req.Header.Get` on the outbound request gives the value the rule sets, else
the first inbound value, else `""`. -/
theorem headerGet_outbound (inbound extra : List (Str × Str)) (key : Str) :
    headerGet (outboundHeaders inbound extra) key =
      (outboundFirst key inbound extra).getD [] := by
  unfold headerGet outboundHeaders outboundFirst
  rw [overlayHeaders_apply]
  cases extra.reverse.find?
      (fun kv => decide (CanonicalMIMEHeaderKey kv.1 = CanonicalMIMEHeaderKey key)) with
  | some kv => rfl
  | none =>
    show (copyHeaders inbound emptyHeader (CanonicalMIMEHeaderKey key)).headD [] = _
    rw [copyHeaders_apply, ← firstValue_eq_firstHeader, firstValue_eq_head]
    simp [emptyHeader]

/-- Go `strings.Contains(s, sub)` holds exactly when `sub` is a contiguous part of `s`. -/
theorem Contains_iff_contiguous (s sub : Str) : Contains s sub = true ↔ sub <:+: s := by
  induction s with
  | nil =>
    have hp : sub.isPrefixOf ([] : Str) = true ↔ sub <+: [] := List.isPrefixOf_iff_prefix
    unfold Contains
    rw [hp]
    constructor
    · intro h
      exact h.isInfix
    · intro h
      rw [List.eq_nil_of_infix_nil h]
  | cons c t ih =>
    unfold Contains
    rw [Bool.or_eq_true, List.isPrefixOf_iff_prefix, ih, List.infix_cons_iff]

/-- The test `strings.Contains(strings.ToLower(value), "text/event-stream")` on a header
value read with `""` for absence holds exactly when the header is carried and its first
value names the media type. -/
theorem Contains_ToLower_getD (lower : Char → Char) (o : Option Str) :
    Contains (ToLower lower (o.getD [])) eventStream = true ↔
      ∃ v, o = some v ∧ namesEventStream lower v := by
  rw [Contains_iff_contiguous]
  unfold namesEventStream ToLower
  cases o with
  | none =>
    constructor
    · intro h
      have hnil := List.eq_nil_of_infix_nil h
      exact absurd hnil (by decide)
    · rintro ⟨v, hv, _⟩
      cases hv
  | some x =>
    constructor
    · intro h
      exact ⟨x, rfl, h⟩
    · rintro ⟨v, hv, h⟩
      cases hv
      exact h

theorem isSSERequest_iff (env : Upstream) (c : RequestContext) (rule : ProxyRule) :
    isSSERequest env c rule = true ↔ requestAcceptsEventStream env.toLower c rule := by
  unfold isSSERequest requestAcceptsEventStream
  rw [headerGet_outbound, Contains_ToLower_getD]

theorem isSSEResponse_iff (env : Upstream) (resp : BackendResponse) :
    isSSEResponse env resp = true ↔ responseIsEventStream env.toLower resp := by
  unfold isSSEResponse responseIsEventStream
  rw [firstValue_eq_firstHeader, Contains_ToLower_getD]

/-- What `proxyRequest` returns and sends once the streaming branch is chosen. -/
theorem proxyRequest_of_isSSE (env : Upstream) (c : RequestContext) (rule : ProxyRule)
    (resp : BackendResponse)
    (hn : env.newRequest c.method (targetURL c rule) = none)
    (hr : env.roundTrip ⟨c.method, targetURL c rule, outboundHeaders c.headers rule.Headers,
      c.body, effectiveTimeout rule⟩ = .ok resp)
    (h : (isSSERequest env c rule || isSSEResponse env resp) = true) :
    (proxyRequest env c rule).streamed = true ∧
      (proxyRequest env c rule).sentStatus = some resp.StatusCode ∧
      (proxyRequest env c rule).sentHeaders = resp.Header ∧
      (proxyRequest env c rule).sentBody = resp.body := by
  unfold proxyRequest
  simp only [hn, hr]
  rw [if_pos h]
  cases resp.readError <;> exact ⟨rfl, rfl, rfl, rfl⟩

/-- C9, as the claim states it, fails: an inbound `Accept: text/event-stream` does not
select streaming when the rule sets `Accept: application/json` (the response being JSON),
and a rule that sets `Accept: text/event-stream` selects streaming although neither the
inbound request nor the response names an event stream. -/
theorem isSSE_follows_overlaid_accept :
    inboundAcceptsEventStream Char.toLower (acceptRequest "text/event-stream".toList) ∧
      (proxyRequest (answering jsonResponse) (acceptRequest "text/event-stream".toList)
        (headerRule [("Accept".toList, "application/json".toList)])).streamed = false ∧
      ¬ inboundAcceptsEventStream Char.toLower (acceptRequest "application/json".toList) ∧
      ¬ responseIsEventStream Char.toLower jsonResponse ∧
      (proxyRequest (answering jsonResponse) (acceptRequest "application/json".toList)
        (headerRule [("Accept".toList, "text/event-stream".toList)])).streamed = true := by
  refine ⟨⟨"text/event-stream".toList, rfl, by decide⟩, by decide, ?_, ?_, by decide⟩
  · rintro ⟨v, hv, h⟩
    have hv2 : v = "application/json".toList := (Option.some.inj hv).symm
    subst hv2
    revert h
    decide
  · rintro ⟨v, hv, h⟩
    have hv2 : v = "application/json".toList := (Option.some.inj hv).symm
    subst hv2
    revert h
    decide

/-- C9, amended: once the backend has answered, `proxyRequest` streams exactly when the
first `Accept` value of the outbound request (the value `rule.Headers` sets, else the first
inbound value) or the first `Content-Type` value of the response holds `text/event-stream`,
compared without case; either alone is enough, and the status, the header lines and the
body of the response are then sent on; when the rule sets no `Accept` header the outbound
value is the inbound request's; when neither holds the body is read to its end and returned
as the buffered body (or the read error). A plain request answered with
`content-type: Text/Event-Stream; charset=utf-8` is streamed, one answered with
`Content-Type: application/json` is buffered. -/
theorem proxyRequest_isSSE (env : Upstream) (c : RequestContext) (rule : ProxyRule)
    (resp : BackendResponse)
    (hn : env.newRequest c.method (targetURL c rule) = none)
    (hr : env.roundTrip ⟨c.method, targetURL c rule, outboundHeaders c.headers rule.Headers,
      c.body, effectiveTimeout rule⟩ = .ok resp) :
    ((proxyRequest env c rule).streamed = true ↔
        requestAcceptsEventStream env.toLower c rule ∨
          responseIsEventStream env.toLower resp) ∧
      (responseIsEventStream env.toLower resp →
        (proxyRequest env c rule).streamed = true ∧
          (proxyRequest env c rule).sentStatus = some resp.StatusCode ∧
          (proxyRequest env c rule).sentHeaders = resp.Header ∧
          (proxyRequest env c rule).sentBody = resp.body) ∧
      (requestAcceptsEventStream env.toLower c rule →
        (proxyRequest env c rule).streamed = true ∧
          (proxyRequest env c rule).sentStatus = some resp.StatusCode ∧
          (proxyRequest env c rule).sentHeaders = resp.Header ∧
          (proxyRequest env c rule).sentBody = resp.body) ∧
      (CanonicalMIMEHeaderKey "Accept".toList ∉
          rule.Headers.map (fun kv => CanonicalMIMEHeaderKey kv.1) →
        (requestAcceptsEventStream env.toLower c rule ↔
          inboundAcceptsEventStream env.toLower c)) ∧
      (¬ requestAcceptsEventStream env.toLower c rule →
        ¬ responseIsEventStream env.toLower resp →
        proxyRequest env c rule =
          match resp.readError with
          | some err => failWith ("读取响应失败: ".toList ++ err)
          | none =>
            { statusCode := resp.StatusCode, responseBody := resp.body, err := none,
              streamed := false, sentStatus := none, sentHeaders := [], sentBody := [] }) ∧
      ((proxyRequest (answering mixedCaseStreamResponse) (getRequest "/x".toList)
            ruleA).streamed = true ∧
        (proxyRequest (answering mixedCaseStreamResponse) (getRequest "/x".toList)
            ruleA).responseBody = "[SSE Stream]".toList ∧
        (proxyRequest (answering jsonResponse) (getRequest "/x".toList) ruleA).streamed =
          false ∧
        (proxyRequest (answering jsonResponse) (getRequest "/x".toList)
            ruleA).responseBody = "[]".toList) := by
  refine ⟨?_, ?_, ?_, ?_, ?_, by decide⟩
  · rw [← isSSERequest_iff, ← isSSEResponse_iff]
    unfold proxyRequest
    simp only [hn, hr]
    by_cases h : (isSSERequest env c rule || isSSEResponse env resp) = true
    · rw [if_pos h]
      have h2 : isSSERequest env c rule = true ∨ isSSEResponse env resp = true := by
        simpa [Bool.or_eq_true] using h
      cases resp.readError <;> simp [h2]
    · rw [if_neg h]
      have h2 : ¬ (isSSERequest env c rule = true ∨ isSSEResponse env resp = true) := by
        simpa [Bool.or_eq_true] using h
      cases resp.readError <;> simp [h2, failWith]
  · intro h
    have h2 := (isSSEResponse_iff env resp).2 h
    exact proxyRequest_of_isSSE env c rule resp hn hr (by rw [h2, Bool.or_true])
  · intro h
    have h2 := (isSSERequest_iff env c rule).2 h
    exact proxyRequest_of_isSSE env c rule resp hn hr (by rw [h2, Bool.true_or])
  · intro hk
    unfold requestAcceptsEventStream inboundAcceptsEventStream outboundFirst
    have hfind : rule.Headers.reverse.find?
        (fun kv => decide (CanonicalMIMEHeaderKey kv.1 =
          CanonicalMIMEHeaderKey "Accept".toList)) = none := by
      rw [List.find?_eq_none]
      intro kv hkv hdec
      apply hk
      rw [List.mem_map]
      exact ⟨kv, List.mem_reverse.1 hkv, (of_decide_eq_true hdec)⟩
    rw [hfind]
  · intro h1 h2
    have h1b : isSSERequest env c rule = false :=
      Bool.eq_false_iff.2 (fun h => h1 ((isSSERequest_iff env c rule).1 h))
    have h2b : isSSEResponse env resp = false :=
      Bool.eq_false_iff.2 (fun h => h2 ((isSSEResponse_iff env resp).1 h))
    unfold proxyRequest
    simp only [hn, hr, h1b, h2b, Bool.or_self, Bool.false_eq_true, if_false]

/-- The amended C9 on a plain request answered by an event stream: the response alone
selects streaming, and its status, header lines and body are sent on. -/
theorem proxyRequest_isSSE_witness :
    (getRequest "/x".toList).headers = [] ∧ ruleA.Headers = [] ∧
      (proxyRequest (answering streamResponse) (getRequest "/x".toList) ruleA).streamed =
        true ∧
      (proxyRequest (answering streamResponse) (getRequest "/x".toList) ruleA).sentStatus =
        some 200 ∧
      (proxyRequest (answering streamResponse) (getRequest "/x".toList) ruleA).sentHeaders =
        [("Content-Type".toList, "text/event-stream".toList)] ∧
      (proxyRequest (answering streamResponse) (getRequest "/x".toList) ruleA).sentBody =
        "data: 1\n\n".toList :=
  ⟨rfl, rfl,
    (proxyRequest_isSSE (answering streamResponse) (getRequest "/x".toList) ruleA
      streamResponse rfl rfl).2.1 ⟨"text/event-stream".toList, rfl, by decide⟩⟩

/-! ## The handler -/

/-- C10: with rule A matching `GET /x/y` and a round trip that fails with
`dial tcp 10.0.0.5:9000: connection refused`, `Handle` answers with status 502 and a body
that carries the text of the error, the address of the backend included; the same text
goes to the `Error` field of the one record appended; another error, a missed deadline,
gives another body. -/
theorem Handle_echoes_forward_error :
    findMatchingRule (jsonCodec id) (getRequest "/x/y".toList) [ruleA] = some ruleA ∧
    (Handle (jsonCodec id) pathCodec (refusing "dial tcp 10.0.0.5:9000: connection refused".toList)
        [ruleA] 0 1 freshLogger (getRequest "/x/y".toList)).reply =
      .json 502 [("error".toList,
        "代理请求失败: 请求失败: dial tcp 10.0.0.5:9000: connection refused".toList)] ∧
    (Handle (jsonCodec id) pathCodec (refusing "dial tcp 10.0.0.5:9000: connection refused".toList)
        [ruleA] 0 1 freshLogger (getRequest "/x/y".toList)).logger.logBuffer.map
          (fun r => r.Error) =
      ["请求失败: dial tcp 10.0.0.5:9000: connection refused".toList] ∧
    (Handle (jsonCodec id) pathCodec (refusing "context deadline exceeded".toList)
        [ruleA] 0 1 freshLogger (getRequest "/x/y".toList)).reply =
      .json 502 [("error".toList, "代理请求失败: 请求失败: context deadline exceeded".toList)] ∧
    (Handle (jsonCodec id) pathCodec (refusing "dial tcp 10.0.0.5:9000: connection refused".toList)
        [ruleA] 0 1 freshLogger (getRequest "/x/y".toList)).reply ≠
      (Handle (jsonCodec id) pathCodec (refusing "context deadline exceeded".toList)
        [ruleA] 0 1 freshLogger (getRequest "/x/y".toList)).reply := by
  decide

theorem LogRequest_freshLogger_ne (logLib : LogCodec) (r : RequestLog) :
    LogRequest logLib freshLogger r ≠ freshLogger := by
  intro h
  have hb := congrArg (fun s => s.logBuffer.length) h
  simp [LogRequest, freshLogger, bufferSize] at hb

/-- C11, as the claim states it, fails: for a request whose path starts with `/admin`
`Handle` passes the request on and calls `LogRequest` not at all, the logger is what it
was, although a rule of the list matches the request. -/
theorem Handle_admin_logs_nothing :
    findMatchingRule (jsonCodec id) adminRequest [ruleB] = some ruleB ∧
      (Handle (jsonCodec id) pathCodec (answering jsonResponse) [ruleB] 0 1 freshLogger
        adminRequest).logger = freshLogger ∧
      (Handle (jsonCodec id) pathCodec (answering jsonResponse) [ruleB] 0 1 freshLogger
        adminRequest).reply = .next ∧
      ∀ r, LogRequest pathCodec freshLogger r ≠ freshLogger := by
  refine ⟨by decide, by decide, by decide, fun r => LogRequest_freshLogger_ne pathCodec r⟩

/-- C11, amended: for a request whose path does not start with `/admin`, `Handle` leaves
the logger in the state of exactly one `LogRequest` call on the state it found, with the
one record of the request (below capacity the buffer is the old buffer followed by that
record), whether no rule matches, forwarding fails or forwarding succeeds; when no rule
matches the reply is status 404 and the record has status 404, an empty rule name, an
empty target and a non-empty error. -/
theorem Handle_logs_once {V : Type} (lib : Codec V) (logLib : LogCodec) (env : Upstream)
    (rules : List ProxyRule) (startTime endTime : Int) (s : Logger) (c : RequestContext)
    (hadmin : HasPrefix c.path "/admin".toList = false) :
    (Handle lib logLib env rules startTime endTime s c).logger =
        LogRequest logLib s (expectedRecord lib env rules startTime endTime c) ∧
      (s.logBuffer.length + 1 < bufferSize →
        (Handle lib logLib env rules startTime endTime s c).logger.logBuffer =
          s.logBuffer ++ [expectedRecord lib env rules startTime endTime c]) ∧
      (findMatchingRule lib c rules = none →
        (Handle lib logLib env rules startTime endTime s c).reply = .abortWithStatus 404 ∧
          (Handle lib logLib env rules startTime endTime s c).forwarded = none ∧
          expectedRecord lib env rules startTime endTime c = notFoundLog startTime endTime c ∧
          (notFoundLog startTime endTime c).StatusCode = 404 ∧
          (notFoundLog startTime endTime c).RuleName = [] ∧
          (notFoundLog startTime endTime c).Target = [] ∧
          (notFoundLog startTime endTime c).Error ≠ []) ∧
      (∀ rule, findMatchingRule lib c rules = some rule →
        expectedRecord lib env rules startTime endTime c =
            forwardLog startTime endTime c rule (proxyRequest env c rule) ∧
          (Handle lib logLib env rules startTime endTime s c).forwarded =
            some (proxyRequest env c rule)) := by
  have hlog : (Handle lib logLib env rules startTime endTime s c).logger =
      LogRequest logLib s (expectedRecord lib env rules startTime endTime c) := by
    unfold Handle expectedRecord
    rw [hadmin]
    cases findMatchingRule lib c rules with
    | none => rfl
    | some rule =>
      simp only [Bool.false_eq_true, if_false]
      cases (proxyRequest env c rule).err <;> rfl
  refine ⟨hlog, ?_, ?_, ?_⟩
  · intro hb
    rw [hlog]
    have hlen : ¬ ((s.logBuffer ++ [expectedRecord lib env rules startTime endTime c]).length
        ≥ bufferSize) := by
      simp only [List.length_append, List.length_singleton]
      omega
    simp only [LogRequest, if_neg hlen]
  · intro hnone
    refine ⟨?_, ?_, ?_, rfl, rfl, rfl, by simp [notFoundLog]⟩
    · simp only [Handle, hadmin, hnone]
      rfl
    · simp only [Handle, hadmin, hnone]
      rfl
    · simp only [expectedRecord, hnone]
  · intro rule hrule
    refine ⟨by simp only [expectedRecord, hrule], ?_⟩
    simp only [Handle, hadmin, hrule]
    cases (proxyRequest env c rule).err <;> rfl

/-- The amended C11 on a request that matches no rule. -/
theorem Handle_logs_once_witness :
    HasPrefix (getRequest "/y".toList).path "/admin".toList = false ∧
      (Handle (jsonCodec id) pathCodec (answering jsonResponse) [ruleA] 0 1 freshLogger
        (getRequest "/y".toList)).logger =
      LogRequest pathCodec freshLogger
        (expectedRecord (jsonCodec id) (answering jsonResponse) [ruleA] 0 1
          (getRequest "/y".toList)) :=
  ⟨by decide,
    (Handle_logs_once (jsonCodec id) pathCodec (answering jsonResponse) [ruleA] 0 1
      freshLogger (getRequest "/y".toList) (by decide)).1⟩


/-! ## The rule matcher against the specification -/

theorem GetHeader_eq (c : RequestContext) (key : Str) :
    GetHeader c key = (c.headerValue key).getD [] := by
  unfold GetHeader
  cases c.headerValue key <;> rfl

theorem Query_eq (c : RequestContext) (key : Str) :
    Query c key = (firstQuery c key).getD [] := by
  unfold Query firstQuery
  cases c.queryArgs.find? (fun kv => kv.1 == key) <;> rfl

/-- A value that is not empty is the value read with `""` for absence exactly when it is
carried. -/
theorem getD_eq_iff_of_ne (o : Option Str) (v : Str) (hv : v ≠ []) :
    o.getD [] = v ↔ o = some v := by
  cases o with
  | none =>
    constructor
    · intro h
      exact absurd h.symm hv
    · intro h
      cases h
  | some x =>
    constructor
    · intro h
      exact congrArg some h
    · intro h
      cases h
      rfl

/-- For a configured body dimension `matchBody` is the body dimension of the
specification, the decoder rejecting the empty input. -/
theorem matchBody_eq_true_iff {V : Type} (lib : Codec V) (c : RequestContext)
    (conds : List (Str × Str)) (hne : conds ≠ [])
    (hempty : ∃ e, lib.unmarshalMap [] = .error e) :
    matchBody lib c conds = true ↔
      ∃ obj, lib.unmarshalMap c.body = .ok (some obj) ∧
        ∀ kv ∈ conds, ∃ v, mapLookup kv.1 obj = some v ∧ lib.sprintV v = kv.2 := by
  obtain ⟨e0, he0⟩ := hempty
  obtain ⟨kv0, rest0, hcons⟩ := List.exists_cons_of_ne_nil hne
  have hnone : matchBodyLoop lib none conds = false := by
    rw [hcons]
    obtain ⟨k, x⟩ := kv0
    simp [matchBodyLoop]
  unfold matchBody
  by_cases hb : c.body.length = 0
  · have hnil : c.body = [] := List.length_eq_zero.1 hb
    simp only [hb, if_true]
    constructor
    · intro h
      cases h
    · rintro ⟨m, hm, _⟩
      rw [hnil, he0] at hm
      cases hm
  · rw [if_neg hb]
    cases hu : lib.unmarshalMap c.body with
    | error e =>
      constructor
      · intro h
        cases h
      · rintro ⟨m, hm, _⟩
        cases hm
    | ok bodyMap =>
      cases bodyMap with
      | none =>
        show matchBodyLoop lib none conds = true ↔ _
        rw [hnone]
        constructor
        · intro h
          cases h
        · rintro ⟨m, hm, _⟩
          cases hm
      | some m =>
        show matchBodyLoop lib (some m) conds = true ↔ _
        rw [matchBodyLoop_iff]
        constructor
        · intro h
          exact ⟨m, rfl, h⟩
        · rintro ⟨m2, hm, h⟩
          cases hm
          exact h

/-- The tests of the loop are the dimensions with absence read as the empty string. -/
theorem passesChecks_iff_ruleAccepts {V : Type} (lib : Codec V) (c : RequestContext)
    (r : ProxyRule) (hempty : ∃ e, lib.unmarshalMap [] = .error e) :
    passesChecks lib c r ↔ ruleAccepts lib c r := by
  have hb : (r.Match.Body = [] ∨ matchBody lib c r.Match.Body = true) ↔
      bodyHolds lib c r.Match := by
    unfold bodyHolds
    by_cases h : r.Match.Body = []
    · exact ⟨fun _ => Or.inl h, fun _ => Or.inl h⟩
    · rw [matchBody_eq_true_iff lib c _ h hempty]
  unfold passesChecks ruleAccepts pathHolds methodHolds ToUpper
  rw [hb]
  simp only [GetHeader_eq, Query_eq]

/-- With no empty configured header or query value, reading absence as the empty string
changes nothing. -/
theorem ruleAccepts_iff_ruleMatches {V : Type} (lib : Codec V) (c : RequestContext)
    (r : ProxyRule) (hv : ∀ kv ∈ r.Match.Headers ++ r.Match.Query, kv.2 ≠ []) :
    ruleAccepts lib c r ↔ ruleMatches lib c r := by
  have hH : (∀ kv ∈ r.Match.Headers, (c.headerValue kv.1).getD [] = kv.2) ↔
      ∀ kv ∈ r.Match.Headers, c.headerValue kv.1 = some kv.2 := by
    constructor
    · intro h kv hkv
      exact (getD_eq_iff_of_ne _ _ (hv kv (List.mem_append_left _ hkv))).1 (h kv hkv)
    · intro h kv hkv
      exact (getD_eq_iff_of_ne _ _ (hv kv (List.mem_append_left _ hkv))).2 (h kv hkv)
  have hQ : (∀ kv ∈ r.Match.Query, (firstQuery c kv.1).getD [] = kv.2) ↔
      ∀ kv ∈ r.Match.Query, firstQuery c kv.1 = some kv.2 := by
    constructor
    · intro h kv hkv
      exact (getD_eq_iff_of_ne _ _ (hv kv (List.mem_append_right _ hkv))).1 (h kv hkv)
    · intro h kv hkv
      exact (getD_eq_iff_of_ne _ _ (hv kv (List.mem_append_right _ hkv))).2 (h kv hkv)
  unfold ruleAccepts ruleMatches
  rw [hH, hQ]

/-- C1, as the claim states it, fails: the request carries no `X-Flag` header, so the header
dimension of the rule that asks for `X-Flag` with the empty value does not hold and no rule
of the list satisfies its dimensions, yet `findMatchingRule` returns that rule. -/
theorem findMatchingRule_selects_on_absent_header :
    (getRequest "/x".toList).headerValue "X-Flag".toList = none ∧
      ("X-Flag".toList, []) ∈ flagRule.Match.Headers ∧
      (∀ r ∈ [flagRule], ¬ ruleMatches (jsonCodec id) (getRequest "/x".toList) r) ∧
      findMatchingRule (jsonCodec id) (getRequest "/x".toList) [flagRule] = some flagRule := by
  refine ⟨rfl, by decide, ?_, by decide⟩
  intro r hr h
  rw [List.mem_singleton] at hr
  subst hr
  have h3 := h.2.2.1 ("X-Flag".toList, []) (by decide)
  cases h3

/-- C1, amended: `findMatchingRule` returns the first rule in list order whose configured
dimensions all hold for the request (every rule before it fails one), and none exactly when
no rule of the list satisfies them, a header or query condition holding when the configured
value equals the request's first value for that header or parameter read as the empty string
when it is absent (the JSON decoder rejecting the empty input, as `json.Unmarshal` does);
when no configured header or query value of the list is empty, this is the dimensions as the
specification words them, absence failing. In the scenario of rule A (path `/x`) and rule B
(path `/`) with a request for `/x/y` both rules match, the list `[A, B]` selects A and the
swapped list `[B, A]` selects B; the method is compared without case: a rule for `post`
takes a `POST` request and not a `GET` request. -/
theorem findMatchingRule_first_match {V : Type} (lib : Codec V) (c : RequestContext)
    (rules : List ProxyRule) (hempty : ∃ e, lib.unmarshalMap [] = .error e) :
    (∀ r, findMatchingRule lib c rules = some r ↔
        ∃ pre post, rules = pre ++ r :: post ∧ ruleAccepts lib c r ∧
          ∀ q ∈ pre, ¬ ruleAccepts lib c q) ∧
    (findMatchingRule lib c rules = none ↔ ∀ r ∈ rules, ¬ ruleAccepts lib c r) ∧
    ((∀ r ∈ rules, ∀ kv ∈ r.Match.Headers ++ r.Match.Query, kv.2 ≠ []) →
      (∀ r, findMatchingRule lib c rules = some r ↔
          ∃ pre post, rules = pre ++ r :: post ∧ ruleMatches lib c r ∧
            ∀ q ∈ pre, ¬ ruleMatches lib c q) ∧
      (findMatchingRule lib c rules = none ↔ ∀ r ∈ rules, ¬ ruleMatches lib c r)) ∧
    (ruleMatches lib (getRequest "/x/y".toList) ruleA ∧
      ruleMatches lib (getRequest "/x/y".toList) ruleB ∧
      findMatchingRule lib (getRequest "/x/y".toList) [ruleA, ruleB] = some ruleA ∧
      findMatchingRule lib (getRequest "/x/y".toList) [ruleB, ruleA] = some ruleB ∧
      ruleA ≠ ruleB) ∧
    (findMatchingRule (jsonCodec id) (postRequest []) [methodRule "post".toList] =
        some (methodRule "post".toList) ∧
      findMatchingRule (jsonCodec id) (getRequest "/".toList) [methodRule "post".toList] =
        none ∧
      findMatchingRule (jsonCodec id) (getRequest "/".toList)
          [methodRule "post".toList, methodRule "Get".toList] =
        some (methodRule "Get".toList)) := by
  have hsome : ∀ r, findMatchingRule lib c rules = some r ↔
      ∃ pre post, rules = pre ++ r :: post ∧ ruleAccepts lib c r ∧
        ∀ q ∈ pre, ¬ ruleAccepts lib c q := by
    intro r
    rw [findMatchingRule_eq_some]
    simp only [passesChecks_iff_ruleAccepts lib c _ hempty]
  have hnone : findMatchingRule lib c rules = none ↔ ∀ r ∈ rules, ¬ ruleAccepts lib c r := by
    rw [findMatchingRule_eq_none]
    simp only [passesChecks_iff_ruleAccepts lib c _ hempty]
  refine ⟨hsome, hnone, ?_, ⟨?_, ?_, ?_, ?_, ?_⟩, ?_⟩
  · intro hv
    constructor
    · intro r
      rw [hsome]
      constructor
      · rintro ⟨pre, post, e, hr, hpre⟩
        have hmem : ∀ q ∈ pre ++ r :: post, q ∈ rules := fun q hq => e ▸ hq
        refine ⟨pre, post, e,
          (ruleAccepts_iff_ruleMatches lib c r (hv r (hmem r (by simp)))).1 hr, ?_⟩
        intro q hq h
        exact hpre q hq
          ((ruleAccepts_iff_ruleMatches lib c q
            (hv q (hmem q (List.mem_append_left _ hq)))).2 h)
      · rintro ⟨pre, post, e, hr, hpre⟩
        have hmem : ∀ q ∈ pre ++ r :: post, q ∈ rules := fun q hq => e ▸ hq
        refine ⟨pre, post, e,
          (ruleAccepts_iff_ruleMatches lib c r (hv r (hmem r (by simp)))).2 hr, ?_⟩
        intro q hq h
        exact hpre q hq
          ((ruleAccepts_iff_ruleMatches lib c q
            (hv q (hmem q (List.mem_append_left _ hq)))).1 h)
    · rw [hnone]
      constructor
      · intro h r hr hm
        exact h r hr ((ruleAccepts_iff_ruleMatches lib c r (hv r hr)).2 hm)
      · intro h r hr hm
        exact h r hr ((ruleAccepts_iff_ruleMatches lib c r (hv r hr)).1 hm)
  · exact ⟨Or.inr ⟨"/y".toList, rfl⟩, Or.inl rfl, fun kv hkv => absurd hkv (List.not_mem_nil kv),
      fun kv hkv => absurd hkv (List.not_mem_nil kv), Or.inl rfl⟩
  · exact ⟨Or.inr ⟨"x/y".toList, rfl⟩, Or.inl rfl, fun kv hkv => absurd hkv (List.not_mem_nil kv),
      fun kv hkv => absurd hkv (List.not_mem_nil kv), Or.inl rfl⟩
  · rw [findMatchingRule_cons, if_pos]
    simp [passesChecks, ruleA, pathRule, getRequest]
  · rw [findMatchingRule_cons, if_pos]
    simp [passesChecks, ruleB, pathRule, getRequest]
  · decide
  · exact ⟨by decide, by decide, by decide⟩

/-- The amended C1 on the precedence scenario: rule A stands first in `[A, B]` and holds for
the request `/x/y`. -/
theorem findMatchingRule_first_match_witness :
    (∃ e, (jsonCodec id).unmarshalMap [] = .error e) ∧
      ∃ pre post, [ruleA, ruleB] = pre ++ ruleA :: post ∧
        ruleAccepts (jsonCodec id) (getRequest "/x/y".toList) ruleA ∧
        ∀ q ∈ pre, ¬ ruleAccepts (jsonCodec id) (getRequest "/x/y".toList) q :=
  ⟨⟨_, rfl⟩,
    ((findMatchingRule_first_match (jsonCodec id) (getRequest "/x/y".toList) [ruleA, ruleB]
      ⟨_, rfl⟩).1 ruleA).1 (by decide)⟩

/-! ## The target URL against the specification -/

/-- C2, as the claim states it, fails: for `GET /api/users?q=a%20b&flag&x=%41` the raw query
string is `q=a%20b&flag&x=%41`, and `proxyRequest` sends the request to
`http://backend:9000/v2/users?q=a+b&flag&x=A`, the query hertz encodes again from the
parsed arguments, not to the URL that ends with the raw query string. -/
theorem targetURL_not_raw_query :
    escapedRequest.rawQuery = "q=a%20b&flag&x=%41".toList ∧
      targetURL escapedRequest apiRule =
        "http://backend:9000/v2/users?q=a+b&flag&x=A".toList ∧
      specTargetURL escapedRequest apiRule =
        "http://backend:9000/v2/users?q=a%20b&flag&x=%41".toList ∧
      targetURL escapedRequest apiRule ≠ specTargetURL escapedRequest apiRule := by
  decide

/-- C2, amended: the outbound URL built by `proxyRequest` is `rule.Target` with its trailing
slash stripped, then the effective path (the inbound path with only the first occurrence of
`rule.Match.Path` replaced by `rule.RewritePath` when that is not empty, the inbound path
otherwise), then `?` and the query string that hertz encodes again from the parsed query
arguments when there is at least one argument; this is the URL with the raw query string
whenever encoding the arguments again gives back the raw query string and the raw query
string is not empty exactly when an argument was parsed; a target `t/` is stripped to `t`;
rule `/api` to `http://backend:9000` with rewrite `/v2` sends `GET /api/users?id=5` to
`http://backend:9000/v2/users?id=5`, and a path holding the prefix twice keeps its second
occurrence. -/
theorem targetURL_spec (c : RequestContext) (rule : ProxyRule) :
    targetURL c rule =
        TrimSuffix rule.Target "/".toList ++ effectivePath c rule ++
          (if c.queryArgs.length > 0 then "?".toList ++ c.queryString else []) ∧
      (c.queryString = c.rawQuery → (c.queryArgs.length > 0 ↔ c.rawQuery ≠ []) →
        targetURL c rule = specTargetURL c rule) ∧
      (∀ t : Str, TrimSuffix (t ++ "/".toList) "/".toList = t) ∧
      apiRequest.rawQuery = "id=5".toList ∧
      targetURL apiRequest apiRule = "http://backend:9000/v2/users?id=5".toList ∧
      specTargetURL apiRequest apiRule = "http://backend:9000/v2/users?id=5".toList ∧
      targetURL (getRequest "/api/api/x".toList) apiRule =
        "http://backend:9000/v2/api/x".toList := by
  have hurl : targetURL c rule =
      TrimSuffix rule.Target "/".toList ++ effectivePath c rule ++
        (if c.queryArgs.length > 0 then "?".toList ++ c.queryString else []) := by
    unfold targetURL effectivePath
    rw [ReplaceFirst_eq]
    by_cases hr : rule.RewritePath = []
    · by_cases hq : c.queryArgs.length > 0 <;> simp [hr, hq]
    · by_cases hq : c.queryArgs.length > 0 <;> simp [hr, hq]
  refine ⟨hurl, ?_, fun t => TrimSuffix_append t _, rfl, by decide, by decide, by decide⟩
  intro hsame hlen
  rw [hurl]
  unfold specTargetURL
  rw [hsame]
  by_cases hq : c.queryArgs.length > 0
  · rw [if_pos hq, if_pos (hlen.1 hq)]
  · rw [if_neg hq, if_neg (fun h => hq (hlen.2 h))]

/-! ## The header matcher against the specification -/

/-- C12, as the claim states it, fails: the request carries no `X-Flag` header, the
condition map is not empty and asks for `X-Flag` with the empty value, and `matchHeaders`
returns true; the rule with that condition is selected. -/
theorem matchHeaders_absent_header_matches_empty :
    emptyValueCondition ≠ [] ∧
      (getRequest "/x".toList).headers = [] ∧
      (getRequest "/x".toList).headerValue "X-Flag".toList = none ∧
      (∃ kv ∈ emptyValueCondition, ¬ headerConditionHolds (getRequest "/x".toList) kv) ∧
      matchHeaders (getRequest "/x".toList) emptyValueCondition = true ∧
      findMatchingRule (jsonCodec id) (getRequest "/x".toList)
          [{ ruleA with Match := ⟨[], [], emptyValueCondition, [], []⟩ }] =
        some { ruleA with Match := ⟨[], [], emptyValueCondition, [], []⟩ } := by
  refine ⟨by decide, rfl, rfl, ⟨("X-Flag".toList, []), by decide, ?_⟩, by decide, by decide⟩
  intro h
  cases h

/-- C12, amended: `matchHeaders` returns true exactly when for every configured key the
first value the request carries under that header, taken as the empty string when the
header is absent, equals the configured value; when every configured value is non-empty
this is: the request carries every configured header and its first value equals the
configured value; and an absent header fails the dimension whenever its configured value
is non-empty. A request with the one header `X-Flag: on` meets the condition `X-Flag: on`,
also when the condition spells the name `x-flag`, and not the conditions `X-Flag: off` and
`X-Flag: On`; a request without headers does not meet `X-Flag: on`. -/
theorem matchHeaders_spec (c : RequestContext) (conds : List (Str × Str)) :
    (matchHeaders c conds = true ↔
        ∀ kv ∈ conds, (c.headerValue kv.1).getD [] = kv.2) ∧
      ((∀ kv ∈ conds, kv.2 ≠ []) →
        (matchHeaders c conds = true ↔ ∀ kv ∈ conds, headerConditionHolds c kv)) ∧
      (∀ kv ∈ conds, kv.2 ≠ [] → c.headerValue kv.1 = none →
        matchHeaders c conds = false) ∧
      (matchHeaders (flagRequest "on".toList) [("X-Flag".toList, "on".toList)] = true ∧
        matchHeaders (flagRequest "on".toList) [("x-flag".toList, "on".toList)] = true ∧
        matchHeaders (flagRequest "on".toList) [("X-Flag".toList, "off".toList)] = false ∧
        matchHeaders (flagRequest "on".toList) [("X-Flag".toList, "On".toList)] = false ∧
        matchHeaders (getRequest "/x".toList) [("X-Flag".toList, "on".toList)] = false) := by
  have hiff : matchHeaders c conds = true ↔
      ∀ kv ∈ conds, (c.headerValue kv.1).getD [] = kv.2 := by
    rw [matchHeaders_iff]
    simp only [GetHeader_eq]
  refine ⟨hiff, ?_, ?_, by decide⟩
  · intro hne
    rw [hiff]
    unfold headerConditionHolds
    constructor
    · intro h kv hkv
      exact (getD_eq_iff_of_ne _ _ (hne kv hkv)).1 (h kv hkv)
    · intro h kv hkv
      exact (getD_eq_iff_of_ne _ _ (hne kv hkv)).2 (h kv hkv)
  · intro kv hkv hne hnone
    cases hm : matchHeaders c conds with
    | false => rfl
    | true =>
      have hv := hiff.1 hm kv hkv
      rw [hnone] at hv
      exact absurd hv.symm hne

end BFFProxy
